import Mathlib

/-!
# goi18n: a verification development

Shallow embedding of `goi18n.go` (package `goi18n`): the catalog
`LanguageI18N`, the loader `LoadBundle`, the resolver `Get` / `GetDefault` /
`GetLocalizations` and the flattener `mapBundleStructure`.

Modelling conventions.

* A Go `map[string]T` is an association list with pairwise distinct keys;
  `mapGet` is the comma-ok index expression `m[k]` and `mapSet` is the
  assignment `m[k] = v`. The order of the list carries no meaning: two maps
  are the same when `mapGet` agrees on every key. Maps are values here, so
  the sharing of one Go map between `translations` and `loadedBundles` is
  not modelled.
* `range` over a Go map visits its entries in an unspecified order. The
  fields of a decoded JSON object are listed in the order in which `range`
  visits them, and the order in which `range` visits a sub-bundle is the
  parameter `ord`, a permutation of the entries.
* `discordgo.Locale` is a Go string type, so a locale is a `String`.
* A method that assigns to the catalog (`SetDefault`, `LoadBundle`) returns
  the catalog after the call; a method that only reads it (`Get`,
  `GetDefault`, `GetLocalizations`) is a function of the catalog and returns
  no catalog. The file system and the JSON decoder are parameters of
  `LoadBundle`.
* `rand.Intn(n)` is `r % n` for a raw draw `r : Nat`; letting `r` range over
  `Nat` covers exactly the values `0, ..., n-1` the call can return.
* `fmt.Printf` calls only log; they are left out.
* A `float64` is its bit pattern and its rendering by `%v` is the parameter
  `fmtFloat`.
* The `text/template` engine is a library, so `Get` takes it as a parameter;
  `stdTemplate` is a model of it for templates made of literal text and
  actions of the form `.name` between the delimiters.
-/

namespace Goi18n

/-! ## Go maps -/

/-- The index expression `m[k]` with the comma-ok flag: `none` is "not found". -/
def mapGet {β : Type} : List (String × β) → String → Option β
  | [], _ => none
  | (k', v) :: rest, k => if k' = k then some v else mapGet rest k

/-- The assignment `m[k] = v`: overwrite the entry of `k`, or add one. -/
def mapSet {β : Type} : List (String × β) → String → β → List (String × β)
  | [], k, v => [(k, v)]
  | (k', v') :: rest, k, v =>
    if k' = k then (k, v) :: rest else (k', v') :: mapSet rest k v

/-- The keys of a map. -/
def mapKeys {β : Type} (m : List (String × β)) : List String := m.map Prod.fst

/-! ## Data model -/

/-- The Go type `bundle`, `map[string][]string`. -/
abbrev bundle := List (String × List String)

/-- A value held in a `Vars` map (`interface{}`): a Go string, or any other
value, identified by a tag. -/
inductive Value where
  | str (s : String)
  | other (tag : Nat)
deriving DecidableEq, Repr

/-- The Go type `Vars`, `map[string]interface{}`; `none` is the nil map. -/
abbrev Vars := Option (List (String × Value))

/-- The Go struct `LanguageI18N`. -/
structure LanguageI18N where
  defaultLocale : String
  translations : List (String × bundle)
  loadedBundles : List (String × bundle)
deriving DecidableEq, Repr

/-- A value produced by `json.Unmarshal` into `interface{}`: `nil`, `bool`,
`float64` (its IEEE 754 bit pattern), `string`, `[]interface{}` and
`map[string]interface{}`. The fields of an object are listed in the order in
which `range` visits them. -/
inductive JSONValue where
  | null
  | bool (b : Bool)
  | num (bits : Nat)
  | str (s : String)
  | arr (xs : List JSONValue)
  | obj (fields : List (String × JSONValue))

instance : Inhabited JSONValue := ⟨.null⟩

/-! ## Constants and constructors -/

/-- The constant `defaultLocale`, `discordgo.EnglishUS`. -/
def defaultLocaleConst : String := "en-US"

/-- The constant `leftDelim`. -/
def leftDelim : String := "\x7b\x7b"

/-- The constant `rightDelim`. -/
def rightDelim : String := "\x7d\x7d"

/-- The constant `keyDelim`. -/
def keyDelim : String := "."

/-- The constructor `NewLanguageI18N`. -/
def NewLanguageI18N : LanguageI18N :=
  { defaultLocale := defaultLocaleConst, translations := [], loadedBundles := [] }

/-- The method `SetDefault`. -/
def SetDefault (l : LanguageI18N) (language : String) : LanguageI18N :=
  { l with defaultLocale := language }

/-! ## Library calls on strings and values -/

/-- Whether `sub` occurs in `s` as a contiguous run, on character lists. -/
def containsSub (sub : List Char) : List Char → Bool
  | [] => sub.isEmpty
  | c :: cs => sub.isPrefixOf (c :: cs) || containsSub sub cs

/-- The library call `strings.Contains(s, sub)`. -/
def stringsContains (s sub : String) : Bool := containsSub sub.data s.data

mutual
/-- The library call `fmt.Sprintf("%v", value)`; `fmtFloat` is the rendering
of a `float64`. A map is printed with its keys sorted. -/
def sprintV (fmtFloat : Nat → String) : JSONValue → String
  | .null => "<nil>"
  | .bool b => if b then "true" else "false"
  | .num bits => fmtFloat bits
  | .str s => s
  | .arr xs => "[" ++ " ".intercalate (sprintList fmtFloat xs) ++ "]"
  | .obj fs => "map[" ++ " ".intercalate
      (((sprintFields fmtFloat fs).insertionSort (fun a b => a.1 ≤ b.1)).map
        (fun p => p.1 ++ ":" ++ p.2)) ++ "]"
/-- The renderings of the elements of a slice, in order. -/
def sprintList (fmtFloat : Nat → String) : List JSONValue → List String
  | [] => []
  | x :: xs => sprintV fmtFloat x :: sprintList fmtFloat xs
/-- The keys of a map with the renderings of their values. -/
def sprintFields (fmtFloat : Nat → String) :
    List (String × JSONValue) → List (String × String)
  | [] => []
  | (k, v) :: rest => (k, sprintV fmtFloat v) :: sprintFields fmtFloat rest
end

/-- The index `rand.Intn(n)` computed from the raw draw `r`. -/
def randIntn (r n : Nat) : Nat := r % n

/-! ## The flattener -/

/-- The loop `for key, content := range jsonContent` of `mapBundleStructure`,
over the fields still to visit, with the bundle built so far. `ord` is the
order in which `range subValues` visits the entries of a sub-bundle. -/
def mapBundleLoop (fmtFloat : Nat → String) (ord : bundle → bundle) (acc : bundle) :
    List (String × JSONValue) → bundle
  | [] => acc
  | (key, .str v) :: rest => mapBundleLoop fmtFloat ord (mapSet acc key [v]) rest
  | (key, .arr v) :: rest =>
    mapBundleLoop fmtFloat ord (mapSet acc key (sprintList fmtFloat v)) rest
  | (key, .obj v) :: rest =>
    mapBundleLoop fmtFloat ord
      ((ord (mapBundleLoop fmtFloat ord [] v)).foldl
        (fun b sub => mapSet b (key ++ keyDelim ++ sub.1) sub.2) acc) rest
  | (key, .null) :: rest =>
    mapBundleLoop fmtFloat ord (mapSet acc key [sprintV fmtFloat .null]) rest
  | (key, .bool b) :: rest =>
    mapBundleLoop fmtFloat ord (mapSet acc key [sprintV fmtFloat (.bool b)]) rest
  | (key, .num n) :: rest =>
    mapBundleLoop fmtFloat ord (mapSet acc key [sprintV fmtFloat (.num n)]) rest

/-- The method `mapBundleStructure`. The `default` case of its type switch is
reached for `nil`, `bool` and `float64`. -/
def mapBundleStructure (fmtFloat : Nat → String) (ord : bundle → bundle)
    (jsonContent : List (String × JSONValue)) : bundle :=
  mapBundleLoop fmtFloat ord [] jsonContent

/-! ## Loading -/

/-- The content of a file. -/
abbrev Bytes := List Nat

/-- The error `LoadBundle` returns: that of `os.ReadFile` or that of
`json.Unmarshal`. -/
inductive LoadError where
  | read
  | unmarshal
deriving DecidableEq, Repr

/-- The library call `json.Unmarshal(buf, &jsonContent)` for the nil
`map[string]interface{}` variable `jsonContent`; `parseJSON` decodes a JSON
text and is `none` on a syntax error. An object fills the map; the JSON value
`null` leaves the map nil, which `range` visits as an empty map, and is no
error; any other value is an error. -/
def jsonUnmarshal (parseJSON : Bytes → Option JSONValue) (buf : Bytes) :
    Option (List (String × JSONValue)) :=
  match parseJSON buf with
  | none => none
  | some (.obj fields) => some fields
  | some .null => some []
  | some _ => none

/-- The method `LoadBundle`, as the catalog after the call and the error it
returns (`none` is `nil`); `readFile` is `os.ReadFile`, `none` on an error. -/
def LoadBundle (readFile : String → Option Bytes) (parseJSON : Bytes → Option JSONValue)
    (fmtFloat : Nat → String) (ord : bundle → bundle) (l : LanguageI18N)
    (locale path : String) : LanguageI18N × Option LoadError :=
  match mapGet l.loadedBundles path with
  | none =>
    match readFile path with
    | none => (l, some .read)
    | some buf =>
      match jsonUnmarshal parseJSON buf with
      | none => (l, some .unmarshal)
      | some jsonContent =>
        let newBundle := mapBundleStructure fmtFloat ord jsonContent
        ({ l with
            loadedBundles := mapSet l.loadedBundles path newBundle
            translations := mapSet l.translations locale newBundle }, none)
  | some loadedBundle =>
    ({ l with translations := mapSet l.translations locale loadedBundle }, none)

/-! ## The template engine, as a parameter of `Get` -/

/-- The calls `Get` makes into `text/template`:
`template.New("").Delims(leftDelim, rightDelim).Option(executionPolicy).Parse(raw)`
and `t.Execute(&buf, variables)`; `none` is a non-nil `err`. `execute` is
only called with a non-nil `Vars` map. -/
structure TemplateEngine where
  Template : Type
  parse : String → Option Template
  execute : Template → List (String × Value) → Option String

/-! ## The resolver -/

/-- Lines 106 to 122 of `Get`: substitute the variables in the drawn variant
`raw` when they are not nil and `raw` contains the left delimiter, and fall
back to `raw` when parsing or executing the template fails. -/
def substitute (E : TemplateEngine) (raw : String) (vars : Vars) : String :=
  match vars with
  | none => raw
  | some m =>
    if stringsContains raw leftDelim then
      match E.parse raw with
      | none => raw
      | some t =>
        match E.execute t m with
        | none => raw
        | some out => out
    else raw

/-- Lines 104 to 122 of `Get`, reached when `raws` is not empty: draw the
variant `raws[rand.Intn(len(raws))]`, then substitute the variables. -/
def render (E : TemplateEngine) (r : Nat) (raws : List String) (vars : Vars) : String :=
  substitute E (raws.getD (randIntn r raws.length) "") vars

mutual
/-- The method `Get`. -/
def Get (E : TemplateEngine) (l : LanguageI18N) (r : Nat) (locale key : String)
    (vars : Vars) : String :=
  match mapGet l.translations locale with
  | none =>
    if _h : locale ≠ l.defaultLocale then GetDefault E l r key vars
    else key
  | some bundles =>
    match mapGet bundles key with
    | none =>
      if _h : locale ≠ l.defaultLocale then GetDefault E l r key vars
      else key
    | some raws =>
      if raws.length = 0 then
        if _h : locale ≠ l.defaultLocale then GetDefault E l r key vars
        else key
      else render E r raws vars
termination_by if locale = l.defaultLocale then 0 else 2
decreasing_by all_goals simp_all

/-- The method `GetDefault`. -/
def GetDefault (E : TemplateEngine) (l : LanguageI18N) (r : Nat) (key : String)
    (vars : Vars) : String :=
  Get E l r l.defaultLocale key vars
termination_by 1
decreasing_by simp
end

/-- The loop `for locale := range l.translations` of `GetLocalizations`, over
the locales still to visit, with the map built so far; `i` is the number of
calls of `Get` made so far, and the call for the next locale draws `rs i`. -/
def localizationsLoop (E : TemplateEngine) (l : LanguageI18N) (rs : Nat → Nat) (key : String)
    (vars : Vars) : Nat → List (String × String) → List (String × bundle) → List (String × String)
  | _, localizations, [] => localizations
  | i, localizations, (locale, _) :: rest =>
    localizationsLoop E l rs key vars (i + 1)
      (mapSet localizations locale (Get E l (rs i) locale key vars)) rest

/-- The method `GetLocalizations`, as the map it returns a pointer to; `ordT`
is the order in which `range` visits `l.translations`. -/
def GetLocalizations (E : TemplateEngine)
    (ordT : List (String × bundle) → List (String × bundle)) (l : LanguageI18N)
    (rs : Nat → Nat) (key : String) (vars : Vars) : List (String × String) :=
  localizationsLoop E l rs key vars 0 [] (ordT l.translations)

/-- The method `Get` run with its failures explicit: `none` is a panic
(`rand.Intn` panics when its argument is not positive, the index expression
`raws[i]` when `i` is out of range) or the end of the fuel, which bounds the
depth of the calls of `Get`. The call of `GetDefault` is unfolded into the
call of `Get` it makes. -/
def GetChecked (E : TemplateEngine) (l : LanguageI18N) (r : Nat) :
    Nat → String → String → Vars → Option String
  | 0, _, _, _ => none
  | fuel + 1, locale, key, vars =>
    match mapGet l.translations locale with
    | none =>
      if locale ≠ l.defaultLocale then GetChecked E l r fuel l.defaultLocale key vars
      else some key
    | some bundles =>
      match mapGet bundles key with
      | none =>
        if locale ≠ l.defaultLocale then GetChecked E l r fuel l.defaultLocale key vars
        else some key
      | some raws =>
        if raws.length = 0 then
          if locale ≠ l.defaultLocale then GetChecked E l r fuel l.defaultLocale key vars
          else some key
        else if raws.length ≤ 0 then none
        else
          match raws[randIntn r raws.length]? with
          | none => none
          | some raw => some (substitute E raw vars)

/-! ## A model of the template engine -/

/-- Split at the first occurrence of the two-character delimiter `a b`: the
text before it and, when it occurs, the text after it. -/
def breakOn (a b : Char) : List Char → List Char × Option (List Char)
  | [] => ([], none)
  | c :: cs =>
    if c = a ∧ cs.head? = some b then ([], some cs.tail)
    else (c :: (breakOn a b cs).1, (breakOn a b cs).2)

/-- An identifier of the modelled fragment: a letter or underscore followed
by letters, digits and underscores (ASCII). -/
def isIdent : List Char → Bool
  | [] => false
  | c :: rest => (c.isAlpha || c == '_') && rest.all (fun d => d.isAlphanum || d == '_')

/-- The field name of an action body of the form `.name`. -/
def fieldName : List Char → Option (List Char)
  | '.' :: name => if isIdent name then some name else none
  | _ => none

/-- A node of a parsed template: literal text, or the action `{{.name}}`. -/
inductive Node where
  | text (s : List Char)
  | field (name : List Char)
deriving DecidableEq, Repr

/-- The outcome of lexing a template source against the modelled fragment. -/
inductive Lexed where
  | ok (ns : List Node)
  | unclosed
  | outside
deriving DecidableEq, Repr

/-- Lex a template source into text and `{{.name}}` nodes. `unclosed`: a `{{`
with no `}}` after it. `outside`: some action is not of the form `{{.name}}`.
The fuel bounds the number of actions: a source with `n` actions needs the
fuel `n + 1`. -/
def lexNodes : Nat → List Char → Lexed
  | 0, _ => .outside
  | fuel + 1, cs =>
    match breakOn '{' '{' cs with
    | (txt, none) => .ok [.text txt]
    | (txt, some rest) =>
      match breakOn '}' '}' rest with
      | (_, none) => .unclosed
      | (body, some rest') =>
        match fieldName body with
        | none => .outside
        | some name =>
          match lexNodes fuel rest' with
          | .ok ns => .ok (.text txt :: .field name :: ns)
          | .unclosed => .unclosed
          | .outside => .outside

/-- The outcome of executing the nodes of a template. -/
inductive Executed where
  | ok (out : String)
  | failed
  | outside
deriving DecidableEq, Repr

/-- Execute the nodes against the map `m` under `missingkey=error`: text is
copied, `{{.name}}` prints the string `m[name]`, and fails when `m` has no
entry for `name`. `outside`: `m[name]` is not a string. -/
def execNodes (m : List (String × Value)) : List Node → Executed
  | [] => .ok ""
  | .text t :: ns =>
    match execNodes m ns with
    | .ok out => .ok (String.mk t ++ out)
    | .failed => .failed
    | .outside => .outside
  | .field name :: ns =>
    match mapGet m (String.mk name) with
    | none => .failed
    | some (.other _) => .outside
    | some (.str s) =>
      match execNodes m ns with
      | .ok out => .ok (s ++ out)
      | .failed => .failed
      | .outside => .outside

/-- What `text/template` does with the templates and values that are not in
the modelled fragment: whether the source parses, and what executing it
gives. -/
structure ForeignTemplates where
  parses : String → Bool
  exec : String → List (String × Value) → Option String

/-- A parsed template: one of the modelled fragment, or any other. -/
inductive StdTemplate where
  | simple (src : String) (ns : List Node)
  | foreign (src : String)
deriving DecidableEq, Repr

/-- Modelled from the spec: the template engine (Go's `text/template`, a
library that is not part of the repository), with delimiters `{{` and `}}`,
variable substitution by name from the supplied mapping, and the strict
policy under which a name absent from the mapping is an error. Templates
made of literal text and actions `{{.name}}` over string values are modelled;
for every other template or value the engine is the parameter `X`. -/
def stdTemplate (X : ForeignTemplates) : TemplateEngine where
  Template := StdTemplate
  parse raw :=
    match lexNodes (raw.data.length + 1) raw.data with
    | .ok ns => some (.simple raw ns)
    | .unclosed => none
    | .outside => if X.parses raw then some (.foreign raw) else none
  execute t m :=
    match t with
    | .foreign src => X.exec src m
    | .simple src ns =>
      match execNodes m ns with
      | .ok out => some out
      | .failed => none
      | .outside => X.exec src m

/-- A `ForeignTemplates` under which nothing outside the fragment parses. -/
def noForeign : ForeignTemplates where
  parses _ := false
  exec _ _ := none

/-! ## Variants made of literal text and placeholders -/

/-- The source of a variant made of literal text and placeholders: each piece
`(t, x, v)` is the literal text `t` followed by the placeholder `{{.x}}`, and
`last` is the literal text after the last placeholder. -/
def variantSource : List (String × String × String) → String → String
  | [], last => last
  | (t, x, _) :: rest, last => t ++ "\x7b\x7b." ++ x ++ "\x7d\x7d" ++ variantSource rest last

/-- The variant with each placeholder of a piece `(t, x, v)` replaced by `v`. -/
def variantValue : List (String × String × String) → String → String
  | [], last => last
  | (t, _, v) :: rest, last => t ++ v ++ variantValue rest last

/-- The nodes of a variant made of literal text and placeholders. -/
def variantNodes : List (String × String × String) → String → List Node
  | [], last => [.text last.data]
  | (t, x, _) :: rest, last => .text t.data :: .field x.data :: variantNodes rest last

/-- The pieces are well formed: the `{{` of each placeholder is the first one
after the preceding placeholder, and each name is an identifier. -/
def piecesOk (pieces : List (String × String × String)) : Prop :=
  ∀ p ∈ pieces, stringsContains (p.1 ++ "\x7b") leftDelim = false ∧ isIdent p.2.1.data = true

/-! ## Leaf paths of an object -/

/-- The paths from the root of an object to the values that are not objects,
each with its value: a path is the list of the keys along it. -/
def leaves : List (String × JSONValue) → List (List String × JSONValue)
  | [] => []
  | (k, .obj sub) :: rest => (leaves sub).map (fun pv => (k :: pv.1, pv.2)) ++ leaves rest
  | (k, .null) :: rest => ([k], .null) :: leaves rest
  | (k, .bool b) :: rest => ([k], .bool b) :: leaves rest
  | (k, .num n) :: rest => ([k], .num n) :: leaves rest
  | (k, .str s) :: rest => ([k], .str s) :: leaves rest
  | (k, .arr xs) :: rest => ([k], .arr xs) :: leaves rest

/-- The leaves below one field. -/
def entryLeaves : String × JSONValue → List (List String × JSONValue)
  | (k, .obj sub) => (leaves sub).map (fun pv => (k :: pv.1, pv.2))
  | (k, v) => [([k], v)]

/-- The leaf paths of an object. -/
def leafPaths (fields : List (String × JSONValue)) : List (List String) :=
  (leaves fields).map Prod.fst

/-- The keys of a path joined with `.`. -/
def dotted : List String → String
  | [] => ""
  | [k] => k
  | k :: k2 :: p => k ++ keyDelim ++ dotted (k2 :: p)

/-- The keys of an object are pairwise distinct at every level the flattener
ranges over, as the keys of a Go map are. -/
inductive WellFormed : List (String × JSONValue) → Prop where
  | nil : WellFormed []
  | leaf (k : String) (v : JSONValue) (rest : List (String × JSONValue)) :
      (∀ sub, v ≠ .obj sub) → k ∉ rest.map Prod.fst → WellFormed rest →
      WellFormed ((k, v) :: rest)
  | obj (k : String) (sub rest : List (String × JSONValue)) :
      k ∉ rest.map Prod.fst → WellFormed sub → WellFormed rest →
      WellFormed ((k, .obj sub) :: rest)

/-- The same object visited in another order: the fields of the object, and
of the objects nested in it, are permuted. -/
inductive Reordered : List (String × JSONValue) → List (String × JSONValue) → Prop where
  | nil : Reordered [] []
  | same (k : String) (v : JSONValue) (l1 l2 : List (String × JSONValue)) :
      Reordered l1 l2 → Reordered ((k, v) :: l1) ((k, v) :: l2)
  | nested (k : String) (o1 o2 l1 l2 : List (String × JSONValue)) :
      Reordered o1 o2 → Reordered l1 l2 →
      Reordered ((k, .obj o1) :: l1) ((k, .obj o2) :: l2)
  | swap (x y : String × JSONValue) (l : List (String × JSONValue)) :
      Reordered (y :: x :: l) (x :: y :: l)
  | trans (l1 l2 l3 : List (String × JSONValue)) :
      Reordered l1 l2 → Reordered l2 l3 → Reordered l1 l3

/-- The variant sequence the flattener stores for a value that is not an
object. -/
def leafVariants (fmtFloat : Nat → String) : JSONValue → List String
  | .str v => [v]
  | .arr v => sprintList fmtFloat v
  | v => [sprintV fmtFloat v]

/-- The entries the loop of `mapBundleStructure` writes for one field. -/
def entryWrites (fmtFloat : Nat → String) (ord : bundle → bundle) :
    String × JSONValue → List (String × List String)
  | (key, .obj v) =>
    (ord (mapBundleStructure fmtFloat ord v)).map (fun sub => (key ++ keyDelim ++ sub.1, sub.2))
  | (key, v) => [(key, leafVariants fmtFloat v)]

/-- The entries the loop of `mapBundleStructure` writes, in order. -/
def writes (fmtFloat : Nat → String) (ord : bundle → bundle) :
    List (String × JSONValue) → List (String × List String)
  | [] => []
  | e :: rest => entryWrites fmtFloat ord e ++ writes fmtFloat ord rest

/-- The entries of the flattened object as the leaf paths give them. -/
def flat (fmtFloat : Nat → String) (fields : List (String × JSONValue)) :
    List (String × List String) :=
  (leaves fields).map (fun pv => (dotted pv.1, leafVariants fmtFloat pv.2))

/-! ## Sample states and objects -/

/-- A Russian bundle. -/
def ruBundle : bundle :=
  [("hello.world", ["Привет, {{.name}}!"]), ("goodbye", ["Пока!", "До свидания!"]),
   ("new.key", ["Новый ключ"]), ("empty", [])]

/-- An English bundle. -/
def enBundle : bundle :=
  [("hello.world", ["Hello, {{.name}}!"]), ("goodbye", ["See you!", "Goodbye!"]),
   ("welcome", ["Hi, {{.name}}!", "Welcome, {{.name}}!"])]

/-- A catalog with a Russian and an English bundle; English is the default. -/
def sampleCatalog : LanguageI18N where
  defaultLocale := "en-US"
  translations := [("ru", ruBundle), ("en-US", enBundle)]
  loadedBundles := []

/-- A float formatter for the samples. -/
def sampleFmt (bits : Nat) : String := toString bits

/-- A decoded object: a nested text, an array and a number. -/
def sampleObject : List (String × JSONValue) :=
  [("hello", .obj [("world", .str "Hello, {{.name}}!")]),
   ("goodbye", .arr [.str "See you!", .str "Goodbye!"]),
   ("count", .num 3)]

/-- An object in which the literal key `a.b` collides with the path `a`, `b`. -/
def collidingObject : List (String × JSONValue) :=
  [("a.b", .str "x"), ("a", .obj [("b", .str "y")])]

/-- The object `collidingObject` visited in the other order. -/
def collidingObjectSwapped : List (String × JSONValue) :=
  [("a", .obj [("b", .str "y")]), ("a.b", .str "x")]

/-- A file system with the single file `locales/null.json`. -/
def sampleReadFile (path : String) : Option Bytes :=
  if path = "locales/null.json" then some [110, 117, 108, 108] else none

/-- A decoder that knows the JSON text `null`. -/
def sampleParseJSON (buf : Bytes) : Option JSONValue :=
  if buf = [110, 117, 108, 108] then some .null else none

/-- A catalog that has cached the English bundle under `locales/en.json`. -/
def cachedCatalog : LanguageI18N where
  defaultLocale := "en-US"
  translations := [("en-US", enBundle)]
  loadedBundles := [("locales/en.json", enBundle)]

/-! ## Lemmas on the resolver -/

theorem Get_of_default (E : TemplateEngine) (l : LanguageI18N) (r : Nat) (key : String)
    (vars : Vars) :
    Get E l r l.defaultLocale key vars =
      match mapGet l.translations l.defaultLocale with
      | none => key
      | some bundles =>
        match mapGet bundles key with
        | none => key
        | some raws => if raws.length = 0 then key else render E r raws vars := by
  rw [Get]
  simp

theorem Get_of_found (E : TemplateEngine) (l : LanguageI18N) (r : Nat) (locale key : String)
    (vars : Vars) (b : bundle) (raws : List String)
    (hb : mapGet l.translations locale = some b) (hr : mapGet b key = some raws)
    (hne : raws ≠ []) :
    Get E l r locale key vars = render E r raws vars := by
  rw [Get]
  simp [hb, hr, hne]

theorem randIntn_lt (r : Nat) (raws : List String) (hne : raws ≠ []) :
    randIntn r raws.length < raws.length :=
  Nat.mod_lt _ (List.length_pos.mpr hne)

/-! ## Theorems on the resolver -/

/-- C1: for a locale other than the default one, when the locale has no
bundle, or its bundle has no entry or an empty variant sequence for the key,
`Get` returns what `Get` returns for the default locale, with the same
variables and the same random draw. -/
theorem Get_falls_back_to_default (E : TemplateEngine) (l : LanguageI18N) (r : Nat)
    (locale key : String) (vars : Vars) (hne : locale ≠ l.defaultLocale)
    (hmiss : mapGet l.translations locale = none ∨
      ∃ b, mapGet l.translations locale = some b ∧
        (mapGet b key = none ∨ mapGet b key = some [])) :
    Get E l r locale key vars = Get E l r l.defaultLocale key vars := by
  conv_lhs => rw [Get]
  rcases hmiss with h | ⟨b, hb, h | h⟩
  · simp [h, hne, GetDefault]
  · simp [hb, h, hne, GetDefault]
  · simp [hb, h, hne, GetDefault]

theorem Get_falls_back_to_default_witness :
    Get (stdTemplate noForeign) sampleCatalog 1 "ru" "empty" none
      = Get (stdTemplate noForeign) sampleCatalog 1 sampleCatalog.defaultLocale "empty" none :=
  Get_falls_back_to_default (stdTemplate noForeign) sampleCatalog 1 "ru" "empty" none
    (by decide) (Or.inr ⟨_, rfl, Or.inr rfl⟩)

/-- C2: for the default locale, when it has no bundle, or its bundle has no
entry or an empty variant sequence for the key, `Get` returns the key
unchanged, whatever the other loaded locales contain. -/
theorem Get_default_returns_key (E : TemplateEngine) (l : LanguageI18N) (r : Nat)
    (locale key : String) (vars : Vars) (heq : locale = l.defaultLocale)
    (hmiss : mapGet l.translations locale = none ∨
      ∃ b, mapGet l.translations locale = some b ∧
        (mapGet b key = none ∨ mapGet b key = some [])) :
    Get E l r locale key vars = key := by
  subst heq
  rw [Get_of_default]
  rcases hmiss with h | ⟨b, hb, h | h⟩
  · simp [h]
  · simp [hb, h]
  · simp [hb, h]

theorem Get_default_returns_key_witness :
    mapGet ruBundle "new.key" = some ["Новый ключ"] ∧
    Get (stdTemplate noForeign) sampleCatalog 0 "en-US" "new.key" none = "new.key" :=
  ⟨by decide,
   Get_default_returns_key (stdTemplate noForeign) sampleCatalog 0 "en-US" "new.key" none rfl
    (Or.inr ⟨_, rfl, Or.inl rfl⟩)⟩

theorem getD_eq_getElem (r : Nat) (raws : List String) (hi : randIntn r raws.length < raws.length) :
    raws.getD (randIntn r raws.length) "" = raws[randIntn r raws.length] := by
  rw [List.getD_eq_getElem?_getD, List.getElem?_eq_getElem hi]
  rfl

theorem substitute_cases (E : TemplateEngine) (raw : String) (vars : Vars) :
    substitute E raw vars = raw ∨
      ∃ m t, vars = some m ∧ stringsContains raw leftDelim = true ∧ E.parse raw = some t ∧
        E.execute t m = some (substitute E raw vars) := by
  unfold substitute
  cases vars with
  | none => exact Or.inl rfl
  | some m =>
    by_cases hc : stringsContains raw leftDelim = true
    · cases hp : E.parse raw with
      | none => simp [hc]
      | some t =>
        cases he : E.execute t m with
        | none => simp [hc, he]
        | some out => exact Or.inr ⟨m, t, rfl, hc, rfl, by simp [hc, he]⟩
    · simp [hc]

theorem substitute_of_plain (E : TemplateEngine) (raw : String) (vars : Vars)
    (hno : vars = none ∨ stringsContains raw leftDelim = false) :
    substitute E raw vars = raw := by
  unfold substitute
  cases vars with
  | none => rfl
  | some m =>
    rcases hno with h | h
    · cases h
    · simp [h]

theorem substitute_of_failure (E : TemplateEngine) (raw : String) (vars : Vars)
    (hfail : E.parse raw = none ∨
      ∃ t, E.parse raw = some t ∧ ∀ m, vars = some m → E.execute t m = none) :
    substitute E raw vars = raw := by
  unfold substitute
  cases vars with
  | none => rfl
  | some m =>
    by_cases hc : stringsContains raw leftDelim = true
    · rcases hfail with h | ⟨t, ht, h⟩
      · simp [hc, h]
      · simp [hc, ht, h m rfl]
    · simp [hc]

/-- C3, as stated, fails: with the variants `"Hi, {{.name}}!"` and
`"Welcome, {{.name}}!"` and the variables `name = "Bob"`, the draw `0` makes
`Get` return `"Hi, Bob!"`, which is not one of the two variants. -/
theorem Get_variant_containment_counterexample :
    mapGet sampleCatalog.translations "en-US" = some enBundle ∧
    mapGet enBundle "welcome" = some ["Hi, {{.name}}!", "Welcome, {{.name}}!"] ∧
    Get (stdTemplate noForeign) sampleCatalog 0 "en-US" "welcome" (some [("name", .str "Bob")])
      = "Hi, Bob!" ∧
    "Hi, Bob!" ∉ ["Hi, {{.name}}!", "Welcome, {{.name}}!"] := by
  refine ⟨rfl, rfl, ?_, by decide⟩
  rw [Get_of_found (stdTemplate noForeign) sampleCatalog 0 "en-US" "welcome" _ enBundle
    ["Hi, {{.name}}!", "Welcome, {{.name}}!"] rfl rfl (by decide)]
  rfl

/-- C3, amended: for a loaded locale and a key whose variant sequence has at
least two elements, every result of `Get` is an element of that sequence, or,
when the variables are not nil and the element contains `{{`, the output of
executing the template parsed from an element of that sequence. -/
theorem Get_result_from_variants (E : TemplateEngine) (l : LanguageI18N) (r : Nat)
    (locale key : String) (vars : Vars) (b : bundle) (raws : List String)
    (hb : mapGet l.translations locale = some b) (hr : mapGet b key = some raws)
    (hlen : 2 ≤ raws.length) :
    ∃ raw ∈ raws, Get E l r locale key vars = raw ∨
      ∃ m t, vars = some m ∧ stringsContains raw leftDelim = true ∧ E.parse raw = some t ∧
        E.execute t m = some (Get E l r locale key vars) := by
  have hne : raws ≠ [] := by
    intro h
    simp [h] at hlen
  have hi := randIntn_lt r raws hne
  rw [Get_of_found E l r locale key vars b raws hb hr hne, render, getD_eq_getElem r raws hi]
  exact ⟨raws[randIntn r raws.length], List.getElem_mem _, substitute_cases E _ vars⟩

theorem Get_result_from_variants_witness :
    ∃ raw ∈ ["Пока!", "До свидания!"],
      Get (stdTemplate noForeign) sampleCatalog 3 "ru" "goodbye" none = raw ∨
      ∃ m t, (none : Vars) = some m ∧ stringsContains raw leftDelim = true ∧
        (stdTemplate noForeign).parse raw = some t ∧
        (stdTemplate noForeign).execute t m
          = some (Get (stdTemplate noForeign) sampleCatalog 3 "ru" "goodbye" none) :=
  Get_result_from_variants (stdTemplate noForeign) sampleCatalog 3 "ru" "goodbye" none
    ruBundle ["Пока!", "До свидания!"] rfl rfl (by decide)

/-- C4: for a loaded locale and a key with a non-empty variant sequence, when
the variables are nil or the drawn variant does not contain `{{`, `Get`
returns the drawn variant `raws[i]` unmodified, with `i = rand.Intn(len(raws))`
in bounds, whatever the template engine is. -/
theorem Get_no_substitution (E : TemplateEngine) (l : LanguageI18N) (r : Nat)
    (locale key : String) (vars : Vars) (b : bundle) (raws : List String)
    (hb : mapGet l.translations locale = some b) (hr : mapGet b key = some raws)
    (hne : raws ≠ [])
    (hno : vars = none ∨
      stringsContains (raws.getD (randIntn r raws.length) "") leftDelim = false) :
    ∃ hi : randIntn r raws.length < raws.length,
      Get E l r locale key vars = raws[randIntn r raws.length] ∧
      ∀ E2 : TemplateEngine, Get E2 l r locale key vars = raws[randIntn r raws.length] := by
  have hi := randIntn_lt r raws hne
  have key_fact : ∀ E2 : TemplateEngine,
      Get E2 l r locale key vars = raws[randIntn r raws.length] := by
    intro E2
    rw [Get_of_found E2 l r locale key vars b raws hb hr hne, render,
      substitute_of_plain E2 _ vars hno, getD_eq_getElem r raws hi]
  exact ⟨hi, key_fact E, key_fact⟩

theorem Get_no_substitution_witness :
    ∃ hi : randIntn 3 ["See you!", "Goodbye!"].length < ["See you!", "Goodbye!"].length,
      Get (stdTemplate noForeign) sampleCatalog 3 "en-US" "goodbye" (some [("name", .str "Bob")])
        = ["See you!", "Goodbye!"][randIntn 3 ["See you!", "Goodbye!"].length] ∧
      ∀ E2 : TemplateEngine,
        Get E2 sampleCatalog 3 "en-US" "goodbye" (some [("name", .str "Bob")])
          = ["See you!", "Goodbye!"][randIntn 3 ["See you!", "Goodbye!"].length] :=
  Get_no_substitution (stdTemplate noForeign) sampleCatalog 3 "en-US" "goodbye"
    (some [("name", .str "Bob")]) enBundle ["See you!", "Goodbye!"] rfl rfl (by decide)
    (Or.inr rfl)

/-- C5: for a loaded locale and a key with a non-empty variant sequence, and
variables that are not nil, when the drawn variant contains `{{` and parsing
or executing the template fails, `Get` returns the drawn variant unrendered;
so it does, under the modelled engine, for the single variant
`"Hello, {{.name}}!"` when the variables have no `name`. -/
theorem Get_template_failure_returns_raw (E : TemplateEngine) (l : LanguageI18N) (r : Nat)
    (locale key : String) (m : List (String × Value)) (b : bundle) (raws : List String)
    (hb : mapGet l.translations locale = some b) (hr : mapGet b key = some raws)
    (hne : raws ≠ [])
    (_hc : stringsContains (raws.getD (randIntn r raws.length) "") leftDelim = true)
    (hfail : E.parse (raws.getD (randIntn r raws.length) "") = none ∨
      ∃ t, E.parse (raws.getD (randIntn r raws.length) "") = some t ∧ E.execute t m = none) :
    (∃ hi : randIntn r raws.length < raws.length,
      Get E l r locale key (some m) = raws[randIntn r raws.length]) ∧
    ∀ (X : ForeignTemplates) (l2 : LanguageI18N) (r2 : Nat) (locale2 key2 : String)
      (b2 : bundle) (m2 : List (String × Value)),
      mapGet l2.translations locale2 = some b2 →
      mapGet b2 key2 = some ["Hello, {{.name}}!"] → mapGet m2 "name" = none →
      Get (stdTemplate X) l2 r2 locale2 key2 (some m2) = "Hello, {{.name}}!" := by
  have hi := randIntn_lt r raws hne
  refine ⟨⟨hi, ?_⟩, ?_⟩
  · rw [Get_of_found E l r locale key (some m) b raws hb hr hne, render,
      substitute_of_failure E _ (some m), getD_eq_getElem r raws hi]
    rcases hfail with h | ⟨t, ht, h⟩
    · exact Or.inl h
    · refine Or.inr ⟨t, ht, ?_⟩
      intro m3 h3
      cases h3
      exact h
  · intro X l2 r2 locale2 key2 b2 m2 hb2 hr2 hm
    have hp : (stdTemplate X).parse "Hello, {{.name}}!"
        = some (StdTemplate.simple "Hello, {{.name}}!"
            [.text "Hello, ".data, .field "name".data, .text "!".data]) := rfl
    rw [Get_of_found (stdTemplate X) l2 r2 locale2 key2 (some m2) b2 _ hb2 hr2 (by simp), render]
    have h0 : (["Hello, {{.name}}!"] : List String).getD
        (randIntn r2 (["Hello, {{.name}}!"] : List String).length) "" = "Hello, {{.name}}!" := by
      simp [randIntn, Nat.mod_one]
    rw [h0]
    apply substitute_of_failure
    refine Or.inr ⟨_, hp, ?_⟩
    intro m3 h3
    cases h3
    have hm2 : mapGet m2 (String.mk "name".data) = none := hm
    simp [stdTemplate, execNodes, hm2]

theorem Get_template_failure_returns_raw_witness :
    (∃ hi : randIntn 5 ["Hello, {{.name}}!"].length < ["Hello, {{.name}}!"].length,
      Get (stdTemplate noForeign) sampleCatalog 5 "en-US" "hello.world"
        (some [("nom", .str "Bob")]) = ["Hello, {{.name}}!"][randIntn 5 ["Hello, {{.name}}!"].length]) ∧
    ∀ (X : ForeignTemplates) (l2 : LanguageI18N) (r2 : Nat) (locale2 key2 : String)
      (b2 : bundle) (m2 : List (String × Value)),
      mapGet l2.translations locale2 = some b2 →
      mapGet b2 key2 = some ["Hello, {{.name}}!"] → mapGet m2 "name" = none →
      Get (stdTemplate X) l2 r2 locale2 key2 (some m2) = "Hello, {{.name}}!" :=
  Get_template_failure_returns_raw (stdTemplate noForeign) sampleCatalog 5 "en-US" "hello.world"
    [("nom", .str "Bob")] enBundle ["Hello, {{.name}}!"] rfl rfl (by decide) rfl
    (Or.inr ⟨_, rfl, rfl⟩)

/-! ## Lemmas on the model of the template engine -/

theorem getD_singleton (r : Nat) (x : String) :
    ([x] : List String).getD (randIntn r ([x] : List String).length) "" = x := by
  simp [randIntn, Nat.mod_one]

theorem breakOn_of_not_contains (a b : Char) (s : List Char)
    (h : containsSub [a, b] s = false) : breakOn a b s = (s, none) := by
  induction s with
  | nil => rfl
  | cons c cs ih =>
    simp only [containsSub, Bool.or_eq_false_iff] at h
    have hn : ¬ (c = a ∧ cs.head? = some b) := by
      rintro ⟨rfl, hb⟩
      cases cs with
      | nil => simp at hb
      | cons d ds =>
        simp only [List.head?_cons, Option.some.injEq] at hb
        subst hb
        simp [List.isPrefixOf] at h
    simp [breakOn, hn, ih h.2]

theorem breakOn_append_delim (a b : Char) (pre rest : List Char)
    (h : containsSub [a, b] (pre ++ [a]) = false) :
    breakOn a b (pre ++ a :: b :: rest) = (pre, some rest) := by
  induction pre with
  | nil => simp [breakOn]
  | cons c cs ih =>
    simp only [List.cons_append, containsSub, Bool.or_eq_false_iff] at h
    have hn : ¬ (c = a ∧ (cs ++ a :: b :: rest).head? = some b) := by
      rintro ⟨rfl, hb⟩
      cases cs with
      | nil =>
        simp only [List.nil_append, List.head?_cons, Option.some.injEq] at hb
        subst hb
        simp [List.isPrefixOf] at h
      | cons d ds =>
        simp only [List.cons_append, List.head?_cons, Option.some.injEq] at hb
        subst hb
        simp [List.isPrefixOf] at h
    have h2 : containsSub [a, b] (cs ++ [a]) = false := h.2
    rw [List.cons_append, breakOn, if_neg hn, ih h2]

theorem not_contains_of_not_mem (a b : Char) (body : List Char) (h : ∀ c ∈ body, c ≠ a) :
    containsSub [a, b] (body ++ [a]) = false := by
  induction body with
  | nil => simp [containsSub, List.isPrefixOf]
  | cons c cs ih =>
    have hc : c ≠ a := h c (List.mem_cons_self _ _)
    have hrest := ih (fun d hd => h d (List.mem_cons_of_mem _ hd))
    simp [containsSub, List.isPrefixOf, hc, Ne.symm hc, hrest]

theorem contains_append_delim (a b : Char) (pre rest : List Char) :
    containsSub [a, b] (pre ++ a :: b :: rest) = true := by
  induction pre with
  | nil => simp [containsSub, List.isPrefixOf]
  | cons c cs ih => simp [containsSub, ih]

theorem isIdent_no_brace (name : List Char) (h : isIdent name = true) :
    ∀ c ∈ '.' :: name, c ≠ '}' := by
  intro c hc
  rcases List.mem_cons.mp hc with rfl | hc
  · decide
  · cases name with
    | nil => simp at hc
    | cons d ds =>
      simp only [isIdent, Bool.and_eq_true, Bool.or_eq_true, List.all_eq_true] at h
      rcases List.mem_cons.mp hc with rfl | hc
      · rintro rfl
        have h1 := h.1
        revert h1
        decide
      · have := h.2 c hc
        rintro rfl
        revert this
        decide

theorem variantSource_cons_data (t x v : String) (rest : List (String × String × String))
    (last : String) :
    (variantSource ((t, x, v) :: rest) last).data
      = t.data ++ '{' :: '{' :: (('.' :: x.data) ++ '}' :: '}' :: (variantSource rest last).data) := by
  have h1 : "\x7b\x7b.".data = ['{', '{', '.'] := rfl
  have h2 : "\x7d\x7d".data = ['}', '}'] := rfl
  simp [variantSource, String.data_append, h1, h2]

theorem lexNodes_variant (pieces : List (String × String × String)) (last : String)
    (hok : piecesOk pieces) (hlast : stringsContains last leftDelim = false) :
    ∀ fuel, pieces.length < fuel →
      lexNodes fuel (variantSource pieces last).data = .ok (variantNodes pieces last) := by
  induction pieces with
  | nil =>
    intro fuel hf
    cases fuel with
    | zero => omega
    | succ f =>
      have h : breakOn '{' '{' last.data = (last.data, none) :=
        breakOn_of_not_contains _ _ _ hlast
      simp [lexNodes, variantSource, variantNodes, h]
  | cons p rest ih =>
    obtain ⟨t, x, v⟩ := p
    intro fuel hf
    cases fuel with
    | zero => omega
    | succ f =>
      have hp := hok (t, x, v) (List.mem_cons_self _ _)
      have hrest : piecesOk rest := fun q hq => hok q (List.mem_cons_of_mem _ hq)
      have ht : containsSub ['{', '{'] (t.data ++ ['{']) = false := by
        have := hp.1
        simpa [stringsContains, leftDelim, String.data_append] using this
      have h1 := breakOn_append_delim '{' '{' t.data
        (('.' :: x.data) ++ '}' :: '}' :: (variantSource rest last).data) ht
      have h2 := breakOn_append_delim '}' '}' ('.' :: x.data) (variantSource rest last).data
        (not_contains_of_not_mem _ _ _ (isIdent_no_brace _ hp.2))
      have h3 : fieldName ('.' :: x.data) = some x.data := by
        simp [fieldName, hp.2]
      have h4 := ih hrest f (by simpa using hf)
      rw [variantSource_cons_data, lexNodes, h1]
      simp only [h2, h3, h4, variantNodes]

theorem execNodes_variant (m : List (String × Value)) (pieces : List (String × String × String))
    (last : String) (hvals : ∀ p ∈ pieces, mapGet m p.2.1 = some (.str p.2.2)) :
    execNodes m (variantNodes pieces last) = .ok (variantValue pieces last) := by
  induction pieces with
  | nil =>
    simp [variantNodes, variantValue, execNodes]
  | cons p rest ih =>
    obtain ⟨t, x, v⟩ := p
    have hx : mapGet m (String.mk x.data) = some (.str v) := hvals (t, x, v) (List.mem_cons_self _ _)
    have hrest := ih (fun q hq => hvals q (List.mem_cons_of_mem _ hq))
    simp [variantNodes, variantValue, execNodes, hx, hrest, String.append_assoc]

theorem variantSource_length (pieces : List (String × String × String)) (last : String) :
    pieces.length < (variantSource pieces last).data.length + 1 := by
  induction pieces with
  | nil => simp
  | cons p rest ih =>
    obtain ⟨t, x, v⟩ := p
    rw [variantSource_cons_data]
    simp only [List.length_cons, List.length_append]
    omega

theorem variantSource_contains (p : String × String × String)
    (rest : List (String × String × String)) (last : String) :
    stringsContains (variantSource (p :: rest) last) leftDelim = true := by
  obtain ⟨t, x, v⟩ := p
  unfold stringsContains
  rw [variantSource_cons_data]
  exact contains_append_delim _ _ _ _

theorem stdTemplate_parse_of_lex (X : ForeignTemplates) (raw : String) (ns : List Node)
    (h : lexNodes (raw.data.length + 1) raw.data = .ok ns) :
    (stdTemplate X).parse raw = some (StdTemplate.simple raw ns) := by
  show (match lexNodes (raw.data.length + 1) raw.data with
    | .ok ns => some (StdTemplate.simple raw ns)
    | .unclosed => none
    | .outside => if X.parses raw then some (StdTemplate.foreign raw) else none) = _
  rw [h]

theorem stdTemplate_execute_of_exec (X : ForeignTemplates) (raw : String) (ns : List Node)
    (m : List (String × Value)) (out : String) (h : execNodes m ns = .ok out) :
    (stdTemplate X).execute (StdTemplate.simple raw ns) m = some out := by
  show (match execNodes m ns with
    | .ok out => some out
    | .failed => none
    | .outside => X.exec raw m) = _
  rw [h]

theorem substitute_variant (X : ForeignTemplates) (m : List (String × Value))
    (pieces : List (String × String × String)) (last : String)
    (hok : piecesOk pieces) (hlast : stringsContains last leftDelim = false)
    (hvals : ∀ p ∈ pieces, mapGet m p.2.1 = some (.str p.2.2)) :
    substitute (stdTemplate X) (variantSource pieces last) (some m) = variantValue pieces last := by
  cases pieces with
  | nil => simp [substitute, variantSource, variantValue, hlast]
  | cons p rest =>
    have hl := stdTemplate_parse_of_lex X _ _
      (lexNodes_variant (p :: rest) last hok hlast _ (variantSource_length (p :: rest) last))
    have he := stdTemplate_execute_of_exec X (variantSource (p :: rest) last) _ m _
      (execNodes_variant m (p :: rest) last hvals)
    unfold substitute
    simp only [variantSource_contains, if_true, hl, he]

/-- C6: under the modelled engine, when a loaded locale maps a key to the
single variant `"Hello, {{.name}}!"` and the variables define `name` as the
string `s`, `Get` returns `"Hello, " ++ s ++ "!"`; and for a single variant
made of literal texts and placeholders `{{.x}}` whose names are all defined
with string values, `Get` returns the variant with every placeholder replaced
by its value and the literal text unchanged. -/
theorem Get_substitutes (X : ForeignTemplates) (l : LanguageI18N) (r : Nat)
    (locale key : String) (b : bundle) (m : List (String × Value))
    (hb : mapGet l.translations locale = some b) :
    (∀ s : String, mapGet b key = some ["Hello, {{.name}}!"] →
      mapGet m "name" = some (.str s) →
      Get (stdTemplate X) l r locale key (some m) = "Hello, " ++ s ++ "!") ∧
    (∀ (pieces : List (String × String × String)) (last : String),
      mapGet b key = some [variantSource pieces last] →
      piecesOk pieces → stringsContains last leftDelim = false →
      (∀ p ∈ pieces, mapGet m p.2.1 = some (.str p.2.2)) →
      Get (stdTemplate X) l r locale key (some m) = variantValue pieces last) := by
  have general : ∀ (pieces : List (String × String × String)) (last : String),
      mapGet b key = some [variantSource pieces last] →
      piecesOk pieces → stringsContains last leftDelim = false →
      (∀ p ∈ pieces, mapGet m p.2.1 = some (.str p.2.2)) →
      Get (stdTemplate X) l r locale key (some m) = variantValue pieces last := by
    intro pieces last hr hok hlast hvals
    rw [Get_of_found (stdTemplate X) l r locale key (some m) b _ hb hr (by simp), render,
      getD_singleton, substitute_variant X m pieces last hok hlast hvals]
  refine ⟨?_, general⟩
  intro s hr hs
  have h := general [("Hello, ", "name", s)] "!" hr
    (by
      intro p hp
      rw [List.mem_singleton] at hp
      subst hp
      exact ⟨rfl, rfl⟩)
    rfl
    (by
      intro p hp
      rw [List.mem_singleton] at hp
      subst hp
      exact hs)
  simpa [variantValue, String.append_assoc] using h

theorem Get_substitutes_witness :
    (∀ s : String, mapGet enBundle "hello.world" = some ["Hello, {{.name}}!"] →
      mapGet [("name", Value.str "World")] "name" = some (.str s) →
      Get (stdTemplate noForeign) sampleCatalog 0 "en-US" "hello.world"
        (some [("name", Value.str "World")]) = "Hello, " ++ s ++ "!") ∧
    (∀ (pieces : List (String × String × String)) (last : String),
      mapGet enBundle "hello.world" = some [variantSource pieces last] →
      piecesOk pieces → stringsContains last leftDelim = false →
      (∀ p ∈ pieces, mapGet [("name", Value.str "World")] p.2.1 = some (.str p.2.2)) →
      Get (stdTemplate noForeign) sampleCatalog 0 "en-US" "hello.world"
        (some [("name", Value.str "World")]) = variantValue pieces last) :=
  Get_substitutes noForeign sampleCatalog 0 "en-US" "hello.world" enBundle
    [("name", Value.str "World")] rfl

/-! ## Lemmas on decoded objects -/

theorem fields_induction {P : List (String × JSONValue) → Prop} (hnil : P [])
    (hleaf : ∀ k v rest, (∀ sub, v ≠ .obj sub) → P rest → P ((k, v) :: rest))
    (hobj : ∀ k sub rest, P sub → P rest → P ((k, .obj sub) :: rest)) :
    ∀ fields, P fields := by
  have main : ∀ n, ∀ fields : List (String × JSONValue), sizeOf fields < n → P fields := by
    intro n
    induction n with
    | zero => intro fields h; omega
    | succ n ih =>
      intro fields h
      cases fields with
      | nil => exact hnil
      | cons e rest =>
        obtain ⟨k, v⟩ := e
        have hrest : P rest := ih rest (by simp at h ⊢; omega)
        cases v with
        | obj sub => exact hobj k sub rest (ih sub (by simp at h ⊢; omega)) hrest
        | null => exact hleaf k _ rest (by intro sub h; cases h) hrest
        | bool b => exact hleaf k _ rest (by intro sub h; cases h) hrest
        | num b => exact hleaf k _ rest (by intro sub h; cases h) hrest
        | str b => exact hleaf k _ rest (by intro sub h; cases h) hrest
        | arr b => exact hleaf k _ rest (by intro sub h; cases h) hrest
  intro fields
  exact main _ fields (Nat.lt_succ_self _)

theorem leaves_leaf (k : String) (v : JSONValue) (rest : List (String × JSONValue))
    (h : ∀ sub, v ≠ .obj sub) : leaves ((k, v) :: rest) = ([k], v) :: leaves rest := by
  cases v with
  | obj sub => exact absurd rfl (h sub)
  | null => rw [leaves]
  | bool b => rw [leaves]
  | num b => rw [leaves]
  | str b => rw [leaves]
  | arr b => rw [leaves]

theorem leaves_obj (k : String) (sub rest : List (String × JSONValue)) :
    leaves ((k, .obj sub) :: rest)
      = (leaves sub).map (fun pv => (k :: pv.1, pv.2)) ++ leaves rest := by
  rw [leaves]

theorem entryWrites_leaf (F : Nat → String) (ord : bundle → bundle) (k : String) (v : JSONValue)
    (h : ∀ sub, v ≠ .obj sub) : entryWrites F ord (k, v) = [(k, leafVariants F v)] := by
  cases v with
  | obj sub => exact absurd rfl (h sub)
  | null => rfl
  | bool b => rfl
  | num b => rfl
  | str b => rfl
  | arr b => rfl

theorem mapBundleLoop_leaf (F : Nat → String) (ord : bundle → bundle) (acc : bundle) (k : String)
    (v : JSONValue) (rest : List (String × JSONValue)) (h : ∀ sub, v ≠ .obj sub) :
    mapBundleLoop F ord acc ((k, v) :: rest)
      = mapBundleLoop F ord (mapSet acc k (leafVariants F v)) rest := by
  cases v with
  | obj sub => exact absurd rfl (h sub)
  | null => rw [mapBundleLoop]; rfl
  | bool b => rw [mapBundleLoop]; rfl
  | num b => rw [mapBundleLoop]; rfl
  | str b => rw [mapBundleLoop]; rfl
  | arr b => rw [mapBundleLoop]; rfl

theorem mapBundleLoop_eq_foldl (F : Nat → String) (ord : bundle → bundle) :
    ∀ (fields : List (String × JSONValue)) (acc : bundle),
      mapBundleLoop F ord acc fields
        = (writes F ord fields).foldl (fun b w => mapSet b w.1 w.2) acc := by
  intro fields
  induction fields with
  | nil => intro acc; rw [mapBundleLoop]; rfl
  | cons e rest ih =>
    intro acc
    obtain ⟨k, v⟩ := e
    by_cases h : ∀ sub, v ≠ .obj sub
    · rw [mapBundleLoop_leaf F ord acc k v rest h, ih, writes, entryWrites_leaf F ord k v h]
      rfl
    · push_neg at h
      obtain ⟨sub, rfl⟩ := h
      rw [mapBundleLoop, ih, writes, List.foldl_append]
      congr 1
      simp only [entryWrites, mapBundleStructure, List.foldl_map]

/-! ## Lemmas on Go maps -/

theorem mapSet_of_not_mem {β : Type} (b : List (String × β)) (k : String) (v : β)
    (h : k ∉ mapKeys b) : mapSet b k v = b ++ [(k, v)] := by
  induction b with
  | nil => rfl
  | cons e rest ih =>
    obtain ⟨k2, v2⟩ := e
    simp only [mapKeys, List.map_cons, List.mem_cons, not_or] at h
    have hne : ¬ k2 = k := fun h2 => h.1 h2.symm
    simp only [mapSet, if_neg hne, List.cons_append]
    rw [ih h.2]

theorem foldl_mapSet_of_nodup {β : Type} (ws acc : List (String × β))
    (h : (mapKeys (acc ++ ws)).Nodup) :
    ws.foldl (fun b w => mapSet b w.1 w.2) acc = acc ++ ws := by
  induction ws generalizing acc with
  | nil => simp
  | cons w rest ih =>
    have hk : w.1 ∉ mapKeys acc := by
      intro hmem
      simp only [mapKeys, List.map_append, List.map_cons] at h hmem
      have := (List.nodup_append.mp h).2.2
      exact this hmem (List.mem_cons_self _ _)
    rw [List.foldl_cons, mapSet_of_not_mem acc w.1 w.2 hk]
    have h2 : (mapKeys ((acc ++ [(w.1, w.2)]) ++ rest)).Nodup := by
      simpa using h
    rw [ih _ h2]
    simp

theorem mem_of_mapGet {β : Type} (b : List (String × β)) (k : String) (v : β)
    (h : mapGet b k = some v) : (k, v) ∈ b := by
  induction b with
  | nil => simp [mapGet] at h
  | cons e rest ih =>
    obtain ⟨k2, v2⟩ := e
    by_cases hk : k2 = k
    · simp only [mapGet, if_pos hk, Option.some.injEq] at h
      subst hk
      subst h
      exact List.mem_cons_self _ _
    · simp only [mapGet, if_neg hk] at h
      exact List.mem_cons_of_mem _ (ih h)

theorem mapGet_of_mem {β : Type} (b : List (String × β)) (k : String) (v : β)
    (hnd : (mapKeys b).Nodup) (h : (k, v) ∈ b) : mapGet b k = some v := by
  induction b with
  | nil => simp at h
  | cons e rest ih =>
    obtain ⟨k2, v2⟩ := e
    simp only [mapKeys, List.map_cons, List.nodup_cons] at hnd
    rcases List.mem_cons.mp h with heq | hmem
    · cases heq
      simp [mapGet]
    · have hk : ¬ k2 = k := by
        rintro rfl
        exact hnd.1 (List.mem_map.mpr ⟨(k2, v), hmem, rfl⟩)
      simp only [mapGet, if_neg hk]
      exact ih hnd.2 hmem

theorem mem_mapSet {β : Type} (b : List (String × β)) (k : String) (v : β) (x : String × β)
    (h : x ∈ mapSet b k v) : x ∈ b ∨ x = (k, v) := by
  induction b with
  | nil =>
    simp only [mapSet, List.mem_singleton] at h
    exact Or.inr h
  | cons e rest ih =>
    obtain ⟨k2, v2⟩ := e
    by_cases hk : k2 = k
    · simp only [mapSet, if_pos hk, List.mem_cons] at h
      rcases h with h | h
      · exact Or.inr h
      · exact Or.inl (List.mem_cons_of_mem _ h)
    · simp only [mapSet, if_neg hk, List.mem_cons] at h
      rcases h with h | h
      · exact Or.inl (h ▸ List.mem_cons_self _ _)
      · rcases ih h with h | h
        · exact Or.inl (List.mem_cons_of_mem _ h)
        · exact Or.inr h

theorem mem_foldl_mapSet {β : Type} (ws acc : List (String × β)) (x : String × β)
    (h : x ∈ ws.foldl (fun b w => mapSet b w.1 w.2) acc) : x ∈ acc ∨ x ∈ ws := by
  induction ws generalizing acc with
  | nil => exact Or.inl h
  | cons w rest ih =>
    rw [List.foldl_cons] at h
    rcases ih _ h with h | h
    · rcases mem_mapSet acc w.1 w.2 x h with h | h
      · exact Or.inl h
      · exact Or.inr (h ▸ List.mem_cons_self _ _)
    · exact Or.inr (List.mem_cons_of_mem _ h)

/-! ## Lemmas on the flattener -/

theorem leaves_path_ne_nil : ∀ (fields : List (String × JSONValue)),
    ∀ pv ∈ leaves fields, pv.1 ≠ [] := by
  intro fields
  induction fields using fields_induction with
  | hnil => intro pv h; simp [leaves] at h
  | hleaf k v rest hv ih =>
    intro pv h
    rw [leaves_leaf k v rest hv] at h
    rcases List.mem_cons.mp h with rfl | h
    · simp
    · exact ih pv h
  | hobj k sub rest _ ih =>
    intro pv h
    rw [leaves_obj, List.mem_append] at h
    rcases h with h | h
    · obtain ⟨q, _, rfl⟩ := List.mem_map.mp h
      simp
    · exact ih pv h

theorem dotted_cons (k : String) (p : List String) (h : p ≠ []) :
    dotted (k :: p) = k ++ keyDelim ++ dotted p := by
  cases p with
  | nil => exact absurd rfl h
  | cons k2 p2 => rfl

theorem flat_leaf (F : Nat → String) (k : String) (v : JSONValue)
    (rest : List (String × JSONValue)) (h : ∀ sub, v ≠ .obj sub) :
    flat F ((k, v) :: rest) = (k, leafVariants F v) :: flat F rest := by
  simp [flat, leaves_leaf k v rest h, dotted]

theorem flat_obj (F : Nat → String) (k : String) (sub rest : List (String × JSONValue)) :
    flat F ((k, .obj sub) :: rest)
      = (flat F sub).map (fun e => (k ++ keyDelim ++ e.1, e.2)) ++ flat F rest := by
  simp only [flat, leaves_obj, List.map_append, List.map_map]
  congr 1
  apply List.map_congr_left
  intro pv hpv
  simp [dotted_cons k pv.1 (leaves_path_ne_nil sub pv hpv)]

theorem writes_perm_flat (F : Nat → String) (ord : bundle → bundle)
    (hord : ∀ b, (ord b).Perm b) :
    ∀ fields : List (String × JSONValue), (mapKeys (flat F fields)).Nodup →
      (writes F ord fields).Perm (flat F fields) ∧
      mapBundleStructure F ord fields = writes F ord fields := by
  have close : ∀ fields : List (String × JSONValue), (mapKeys (flat F fields)).Nodup →
      (writes F ord fields).Perm (flat F fields) →
      mapBundleStructure F ord fields = writes F ord fields := by
    intro fields hnd hperm
    have hk : (mapKeys ([] ++ writes F ord fields)).Nodup := by
      rw [List.nil_append]
      exact ((hperm.map Prod.fst).nodup_iff).mpr hnd
    rw [mapBundleStructure, mapBundleLoop_eq_foldl, foldl_mapSet_of_nodup _ _ hk, List.nil_append]
  intro fields
  induction fields using fields_induction with
  | hnil =>
    intro _
    have hf : flat F [] = [] := by simp [flat, leaves]
    rw [hf]
    exact ⟨List.Perm.refl _, by rw [mapBundleStructure, mapBundleLoop]; rfl⟩
  | hleaf k v rest hv ih =>
    intro hnd
    have hnd2 := hnd
    rw [flat_leaf F k v rest hv] at hnd2
    simp only [mapKeys, List.map_cons, List.nodup_cons] at hnd2
    have hp : (writes F ord ((k, v) :: rest)).Perm (flat F ((k, v) :: rest)) := by
      rw [flat_leaf F k v rest hv, writes, entryWrites_leaf F ord k v hv]
      exact List.Perm.cons _ (ih hnd2.2).1
    exact ⟨hp, close _ hnd hp⟩
  | hobj k sub rest ihsub ihrest =>
    intro hnd
    have hnd2 := hnd
    rw [flat_obj] at hnd2
    simp only [mapKeys, List.map_append, List.map_map] at hnd2
    have hparts := List.nodup_append.mp hnd2
    have hsubnd : (mapKeys (flat F sub)).Nodup := by
      have h1 : List.map (Prod.fst ∘ fun e : String × List String => (k ++ keyDelim ++ e.1, e.2))
          (flat F sub) = (mapKeys (flat F sub)).map (fun s => k ++ keyDelim ++ s) := by
        simp [mapKeys, List.map_map, Function.comp_def]
      have h2 := hparts.1
      rw [h1] at h2
      exact List.Nodup.of_map _ h2
    obtain ⟨hsp, hse⟩ := ihsub hsubnd
    have hp : (writes F ord ((k, .obj sub) :: rest)).Perm (flat F ((k, .obj sub) :: rest)) := by
      rw [flat_obj, writes]
      apply List.Perm.append _ (ihrest hparts.2.1).1
      simp only [entryWrites]
      rw [hse]
      exact ((hord _).trans hsp).map _
    exact ⟨hp, close _ hnd hp⟩

theorem mapGet_mapBundleStructure_iff (F : Nat → String) (ord : bundle → bundle)
    (hord : ∀ b, (ord b).Perm b) (fields : List (String × JSONValue))
    (hnd : (mapKeys (flat F fields)).Nodup) (key : String) (vs : List String) :
    mapGet (mapBundleStructure F ord fields) key = some vs ↔ (key, vs) ∈ flat F fields := by
  obtain ⟨hp, he⟩ := writes_perm_flat F ord hord fields hnd
  have hk : (mapKeys (writes F ord fields)).Nodup := ((hp.map Prod.fst).nodup_iff).mpr hnd
  rw [he]
  constructor
  · intro h
    exact hp.mem_iff.mp (mem_of_mapGet _ _ _ h)
  · intro h
    exact mapGet_of_mem _ _ _ hk (hp.mem_iff.mpr h)

theorem leafPaths_head_mem (fields : List (String × JSONValue)) :
    ∀ p ∈ leafPaths fields, ∃ k ∈ fields.map Prod.fst, ∃ q, p = k :: q := by
  induction fields using fields_induction with
  | hnil => intro p h; simp [leafPaths, leaves] at h
  | hleaf k v rest hv ih =>
    intro p h
    rw [leafPaths, leaves_leaf k v rest hv, List.map_cons] at h
    rcases List.mem_cons.mp h with rfl | h
    · exact ⟨k, List.mem_cons_self _ _, [], rfl⟩
    · obtain ⟨k2, hk2, q, rfl⟩ := ih p h
      exact ⟨k2, List.mem_cons_of_mem _ hk2, q, rfl⟩
  | hobj k sub rest _ ih =>
    intro p h
    rw [leafPaths, leaves_obj, List.map_append, List.mem_append] at h
    rcases h with h | h
    · simp only [List.map_map, List.mem_map, Function.comp_apply] at h
      obtain ⟨pv, _, rfl⟩ := h
      exact ⟨k, List.mem_cons_self _ _, pv.1, rfl⟩
    · obtain ⟨k2, hk2, q, rfl⟩ := ih p h
      exact ⟨k2, List.mem_cons_of_mem _ hk2, q, rfl⟩

theorem leafPaths_nodup (fields : List (String × JSONValue)) (hwf : WellFormed fields) :
    (leafPaths fields).Nodup := by
  induction hwf with
  | nil => simp [leafPaths, leaves]
  | leaf k v rest hv hk _ ih =>
    rw [leafPaths, leaves_leaf k v rest hv, List.map_cons, List.nodup_cons]
    refine ⟨?_, ih⟩
    intro hmem
    obtain ⟨k2, hk2, q, hq⟩ := leafPaths_head_mem rest [k] hmem
    cases hq
    exact hk hk2
  | obj k sub rest hk _ _ ihsub ihrest =>
    rw [leafPaths, leaves_obj, List.map_append, List.nodup_append]
    refine ⟨?_, ihrest, ?_⟩
    · have h1 : List.map Prod.fst (List.map (fun pv : List String × JSONValue => (k :: pv.1, pv.2))
          (leaves sub)) = (leafPaths sub).map (fun p => k :: p) := by
        simp [leafPaths, List.map_map, Function.comp_def]
      rw [h1]
      exact ihsub.map (fun a b h => List.tail_eq_of_cons_eq h)
    · intro p hp1 hp2
      simp only [List.map_map, List.mem_map, Function.comp_apply] at hp1
      obtain ⟨pv, _, rfl⟩ := hp1
      obtain ⟨k2, hk2, q, hq⟩ := leafPaths_head_mem rest _ hp2
      cases hq
      exact hk hk2

theorem flat_keys_nodup (F : Nat → String) (fields : List (String × JSONValue))
    (hwf : WellFormed fields)
    (hinj : ∀ p ∈ leafPaths fields, ∀ q ∈ leafPaths fields, dotted p = dotted q → p = q) :
    (mapKeys (flat F fields)).Nodup := by
  have h1 : mapKeys (flat F fields) = (leafPaths fields).map dotted := by
    simp [mapKeys, flat, leafPaths, List.map_map, Function.comp_def]
  rw [h1]
  exact List.Nodup.map_on (fun p hp q hq h => hinj p hp q hq h) (leafPaths_nodup fields hwf)

theorem leaves_cons (e : String × JSONValue) (l : List (String × JSONValue)) :
    leaves (e :: l) = entryLeaves e ++ leaves l := by
  obtain ⟨k, v⟩ := e
  cases v with
  | obj sub => rw [leaves_obj]; rfl
  | null => rw [leaves]; rfl
  | bool b => rw [leaves]; rfl
  | num b => rw [leaves]; rfl
  | str b => rw [leaves]; rfl
  | arr b => rw [leaves]; rfl

theorem leaves_perm_of_reordered (l1 l2 : List (String × JSONValue)) (h : Reordered l1 l2) :
    (leaves l1).Perm (leaves l2) := by
  induction h with
  | nil => exact List.Perm.refl _
  | same k v l1 l2 _ ih =>
    rw [leaves_cons, leaves_cons]
    exact List.Perm.append_left _ ih
  | nested k o1 o2 l1 l2 _ _ iho ihl =>
    rw [leaves_obj, leaves_obj]
    exact List.Perm.append (iho.map _) ihl
  | swap x y l =>
    rw [leaves_cons, leaves_cons, leaves_cons, leaves_cons, ← List.append_assoc,
      ← List.append_assoc]
    exact List.Perm.append_right _ List.perm_append_comm
  | trans l1 l2 l3 _ _ ih1 ih2 => exact ih1.trans ih2

theorem sprintList_eq_map (F : Nat → String) (xs : List JSONValue) :
    sprintList F xs = xs.map (sprintV F) := by
  induction xs with
  | nil => rw [sprintList]; rfl
  | cons x rest ih => rw [sprintList, ih]; rfl

theorem flat_sublist_of_mem (F : Nat → String) (k : String) (o : List (String × JSONValue)) :
    ∀ fields : List (String × JSONValue), (k, JSONValue.obj o) ∈ fields →
      ((flat F o).map (fun e => (k ++ keyDelim ++ e.1, e.2))).Sublist (flat F fields) := by
  intro fields
  induction fields with
  | nil => intro h; simp at h
  | cons e rest ih =>
    intro h
    obtain ⟨k2, v⟩ := e
    rcases List.mem_cons.mp h with heq | hmem
    · cases heq
      rw [flat_obj]
      exact List.sublist_append_left _ _
    · have hrest := ih hmem
      by_cases hv : ∀ sub, v ≠ .obj sub
      · rw [flat_leaf F k2 v rest hv]
        exact List.Sublist.cons _ hrest
      · push_neg at hv
        obtain ⟨sub, rfl⟩ := hv
        rw [flat_obj]
        exact hrest.trans (List.sublist_append_right _ _)

theorem mem_flat_iff (F : Nat → String) (fields : List (String × JSONValue)) (key : String)
    (vs : List String) :
    (key, vs) ∈ flat F fields ↔ ∃ pv ∈ leaves fields, dotted pv.1 = key ∧ leafVariants F pv.2 = vs := by
  constructor
  · intro h
    obtain ⟨pv, hpv, heq⟩ := List.mem_map.mp h
    cases heq
    exact ⟨pv, hpv, rfl, rfl⟩
  · rintro ⟨pv, hpv, rfl, rfl⟩
    exact List.mem_map.mpr ⟨pv, hpv, rfl⟩

theorem sampleObject_wellFormed : WellFormed sampleObject :=
  WellFormed.obj _ _ _ (by decide)
    (WellFormed.leaf _ _ _ (by intro sub h; cases h) (by decide) WellFormed.nil)
    (WellFormed.leaf _ _ _ (by intro sub h; cases h) (by decide)
      (WellFormed.leaf _ _ _ (by intro sub h; cases h) (by decide) WellFormed.nil))

theorem sampleObject_paths_injective :
    ∀ p ∈ leafPaths sampleObject, ∀ q ∈ leafPaths sampleObject, dotted p = dotted q → p = q := by
  have hp : leafPaths sampleObject = [["hello", "world"], ["goodbye"], ["count"]] := by
    simp [leafPaths, sampleObject, leaves]
  rw [hp]
  decide

/-! ## Theorems on the flattener -/

/-- C7: for an object in which no two distinct leaf paths give the same
dotted key, the keys of `mapBundleStructure` are exactly the dot-joined leaf
paths; for a key `k` mapped to the nested object `o`, a key `k2` of
`mapBundleStructure o` is found under `k.k2` with the same variant sequence;
and the object with `a` mapped to the object with `b` mapped to `x` flattens
to the single entry `a.b` with the variant `x`. -/
theorem mapBundleStructure_keys_are_leaf_paths (F : Nat → String) (ord : bundle → bundle)
    (hord : ∀ b, (ord b).Perm b) (fields : List (String × JSONValue))
    (hwf : WellFormed fields)
    (hinj : ∀ p ∈ leafPaths fields, ∀ q ∈ leafPaths fields, dotted p = dotted q → p = q) :
    (∀ key, (∃ vs, mapGet (mapBundleStructure F ord fields) key = some vs)
      ↔ ∃ p ∈ leafPaths fields, dotted p = key) ∧
    (∀ k o, (k, JSONValue.obj o) ∈ fields → ∀ k2 vs,
      mapGet (mapBundleStructure F ord o) k2 = some vs →
      mapGet (mapBundleStructure F ord fields) (k ++ keyDelim ++ k2) = some vs) ∧
    mapBundleStructure F ord [("a", .obj [("b", .str "x")])] = [("a.b", ["x"])] := by
  have hnd := flat_keys_nodup F fields hwf hinj
  refine ⟨?_, ?_, ?_⟩
  · intro key
    constructor
    · rintro ⟨vs, h⟩
      rw [mapGet_mapBundleStructure_iff F ord hord fields hnd, mem_flat_iff] at h
      obtain ⟨pv, hpv, hd, _⟩ := h
      exact ⟨pv.1, List.mem_map.mpr ⟨pv, hpv, rfl⟩, hd⟩
    · rintro ⟨p, hp, hd⟩
      obtain ⟨pv, hpv, rfl⟩ := List.mem_map.mp hp
      refine ⟨leafVariants F pv.2, ?_⟩
      rw [mapGet_mapBundleStructure_iff F ord hord fields hnd, mem_flat_iff]
      exact ⟨pv, hpv, hd, rfl⟩
  · intro k o hmem k2 vs h
    have hsub := flat_sublist_of_mem F k o fields hmem
    have hond : (mapKeys (flat F o)).Nodup := by
      have h1 := (hsub.map Prod.fst).nodup hnd
      have h2 : List.map Prod.fst (List.map (fun e : String × List String =>
          (k ++ keyDelim ++ e.1, e.2)) (flat F o))
          = (mapKeys (flat F o)).map (fun s => k ++ keyDelim ++ s) := by
        simp [mapKeys, List.map_map, Function.comp_def]
      rw [h2] at h1
      exact List.Nodup.of_map _ h1
    rw [mapGet_mapBundleStructure_iff F ord hord o hond] at h
    rw [mapGet_mapBundleStructure_iff F ord hord fields hnd]
    exact hsub.subset (List.mem_map.mpr ⟨(k2, vs), h, rfl⟩)
  · have h1 : ord [("b", ["x"])] = [("b", ["x"])] := List.perm_singleton.mp (hord _)
    simp [mapBundleStructure, mapBundleLoop, mapSet, keyDelim, h1]

theorem mapBundleStructure_keys_are_leaf_paths_witness :
    (∀ key, (∃ vs, mapGet (mapBundleStructure sampleFmt List.reverse sampleObject) key = some vs)
      ↔ ∃ p ∈ leafPaths sampleObject, dotted p = key) ∧
    (∀ k o, (k, JSONValue.obj o) ∈ sampleObject → ∀ k2 vs,
      mapGet (mapBundleStructure sampleFmt List.reverse o) k2 = some vs →
      mapGet (mapBundleStructure sampleFmt List.reverse sampleObject) (k ++ keyDelim ++ k2)
        = some vs) ∧
    mapBundleStructure sampleFmt List.reverse [("a", .obj [("b", .str "x")])]
      = [("a.b", ["x"])] :=
  mapBundleStructure_keys_are_leaf_paths sampleFmt List.reverse (fun b => List.reverse_perm b)
    sampleObject
    sampleObject_wellFormed sampleObject_paths_injective

/-- C8: for an object in which no two distinct leaf paths give the same
dotted key, the entry of a leaf path is: for a string `s`, the one-element
sequence of `s`; for an array, the renderings of its elements in the order of
the array; for `null`, a boolean or a number, the one-element sequence of its
rendering. -/
theorem mapBundleStructure_leaf_entries (F : Nat → String) (ord : bundle → bundle)
    (hord : ∀ b, (ord b).Perm b) (fields : List (String × JSONValue))
    (hwf : WellFormed fields)
    (hinj : ∀ p ∈ leafPaths fields, ∀ q ∈ leafPaths fields, dotted p = dotted q → p = q) :
    ∀ p v, (p, v) ∈ leaves fields →
      (∀ s, v = .str s → mapGet (mapBundleStructure F ord fields) (dotted p) = some [s]) ∧
      (∀ xs, v = .arr xs →
        mapGet (mapBundleStructure F ord fields) (dotted p) = some (xs.map (sprintV F)) ∧
        (xs.map (sprintV F)).length = xs.length) ∧
      ((v = .null ∨ (∃ b, v = .bool b) ∨ ∃ n, v = .num n) →
        mapGet (mapBundleStructure F ord fields) (dotted p) = some [sprintV F v]) := by
  have hnd := flat_keys_nodup F fields hwf hinj
  intro p v hmem
  have h : mapGet (mapBundleStructure F ord fields) (dotted p) = some (leafVariants F v) := by
    rw [mapGet_mapBundleStructure_iff F ord hord fields hnd, mem_flat_iff]
    exact ⟨(p, v), hmem, rfl, rfl⟩
  refine ⟨?_, ?_, ?_⟩
  · rintro s rfl
    exact h
  · rintro xs rfl
    refine ⟨?_, List.length_map _ _⟩
    rw [h, leafVariants, sprintList_eq_map]
  · rintro (rfl | ⟨b, rfl⟩ | ⟨n, rfl⟩)
    · exact h
    · exact h
    · exact h

theorem mapBundleStructure_leaf_entries_witness :
    (∀ s, JSONValue.arr [.str "See you!", .str "Goodbye!"] = .str s →
      mapGet (mapBundleStructure sampleFmt List.reverse sampleObject) (dotted ["goodbye"])
        = some [s]) ∧
    (∀ xs, JSONValue.arr [.str "See you!", .str "Goodbye!"] = .arr xs →
      mapGet (mapBundleStructure sampleFmt List.reverse sampleObject) (dotted ["goodbye"])
        = some (xs.map (sprintV sampleFmt)) ∧
      (xs.map (sprintV sampleFmt)).length = xs.length) ∧
    ((JSONValue.arr [.str "See you!", .str "Goodbye!"] = .null ∨
        (∃ b, JSONValue.arr [.str "See you!", .str "Goodbye!"] = .bool b) ∨
        ∃ n, JSONValue.arr [.str "See you!", .str "Goodbye!"] = .num n) →
      mapGet (mapBundleStructure sampleFmt List.reverse sampleObject) (dotted ["goodbye"])
        = some [sprintV sampleFmt (.arr [.str "See you!", .str "Goodbye!"])]) :=
  mapBundleStructure_leaf_entries sampleFmt List.reverse (fun b => List.reverse_perm b)
    sampleObject sampleObject_wellFormed sampleObject_paths_injective
    ["goodbye"] (.arr [.str "See you!", .str "Goodbye!"])
    (by simp [sampleObject, leaves])

theorem leafVariants_ne_nil (F : Nat → String) (v : JSONValue) (h : v ≠ .arr []) :
    leafVariants F v ≠ [] := by
  cases v with
  | arr xs =>
    cases xs with
    | nil => exact absurd rfl h
    | cons x rest => rw [leafVariants, sprintList]; simp
  | null => simp [leafVariants]
  | bool b => simp [leafVariants]
  | num b => simp [leafVariants]
  | str b => simp [leafVariants]
  | obj b => simp [leafVariants]

theorem mem_mapBundleStructure (F : Nat → String) (ord : bundle → bundle)
    (fields : List (String × JSONValue)) (x : String × List String)
    (h : x ∈ mapBundleStructure F ord fields) : x ∈ writes F ord fields := by
  rw [mapBundleStructure, mapBundleLoop_eq_foldl] at h
  rcases mem_foldl_mapSet _ _ _ h with h | h
  · simp at h
  · exact h

theorem writes_ne_nil (F : Nat → String) (ord : bundle → bundle)
    (hord : ∀ b, (ord b).Perm b) :
    ∀ fields : List (String × JSONValue), (∀ pv ∈ leaves fields, pv.2 ≠ .arr []) →
      ∀ x ∈ writes F ord fields, x.2 ≠ [] := by
  intro fields
  induction fields using fields_induction with
  | hnil => intro _ x hx; simp [writes] at hx
  | hleaf k v rest hv ih =>
    intro hne x hx
    rw [leaves_leaf k v rest hv] at hne
    rw [writes, entryWrites_leaf F ord k v hv, List.mem_append] at hx
    rcases hx with hx | hx
    · rw [List.mem_singleton] at hx
      subst hx
      exact leafVariants_ne_nil F v (hne ([k], v) (List.mem_cons_self _ _))
    · exact ih (fun pv hpv => hne pv (List.mem_cons_of_mem _ hpv)) x hx
  | hobj k sub rest ihsub ihrest =>
    intro hne x hx
    rw [leaves_obj] at hne
    rw [writes, List.mem_append] at hx
    rcases hx with hx | hx
    · simp only [entryWrites] at hx
      obtain ⟨e, he, rfl⟩ := List.mem_map.mp hx
      have he2 : e ∈ mapBundleStructure F ord sub := (hord _).mem_iff.mp he
      refine ihsub ?_ e (mem_mapBundleStructure F ord sub e he2)
      intro pv hpv
      exact hne (k :: pv.1, pv.2)
        (List.mem_append_left _ (List.mem_map.mpr ⟨pv, hpv, rfl⟩))
    · exact ihrest (fun pv hpv => hne pv (List.mem_append_right _ hpv)) x hx

theorem mapGet_mapSet_self {β : Type} (b : List (String × β)) (k : String) (v : β) :
    mapGet (mapSet b k v) k = some v := by
  induction b with
  | nil => simp [mapSet, mapGet]
  | cons e rest ih =>
    obtain ⟨k2, v2⟩ := e
    by_cases hk : k2 = k
    · simp [mapSet, mapGet, hk]
    · simp [mapSet, mapGet, hk, ih]

/-- C9, as stated, fails: an empty array flattens to an entry with an empty
variant sequence. -/
theorem mapBundleStructure_nonempty_counterexample :
    mapGet (mapBundleStructure sampleFmt id [("k", .arr [])]) "k" = some [] := by
  simp [mapBundleStructure, mapBundleLoop, sprintList, mapSet, mapGet]

/-- C9, amended: for an object none of whose leaf values is an empty array,
every key of the bundle returned by `mapBundleStructure` maps to a variant
sequence with at least one element, and so does every key of the bundle that
`LoadBundle` stores in `translations` and `loadedBundles` when it loads such
an object from a path that is not cached. -/
theorem mapBundleStructure_variants_nonempty (F : Nat → String) (ord : bundle → bundle)
    (hord : ∀ b, (ord b).Perm b) (fields : List (String × JSONValue))
    (hne : ∀ pv ∈ leaves fields, pv.2 ≠ .arr []) :
    (∀ key vs, mapGet (mapBundleStructure F ord fields) key = some vs → vs ≠ []) ∧
    (∀ (readFile : String → Option Bytes) (parseJSON : Bytes → Option JSONValue)
      (l : LanguageI18N) (locale path : String) (buf : Bytes),
      mapGet l.loadedBundles path = none → readFile path = some buf →
      jsonUnmarshal parseJSON buf = some fields →
      ∃ l2 b, LoadBundle readFile parseJSON F ord l locale path = (l2, none) ∧
        mapGet l2.translations locale = some b ∧ mapGet l2.loadedBundles path = some b ∧
        ∀ key vs, mapGet b key = some vs → vs ≠ []) := by
  have h1 : ∀ key vs, mapGet (mapBundleStructure F ord fields) key = some vs → vs ≠ [] := by
    intro key vs h
    exact writes_ne_nil F ord hord fields hne (key, vs)
      (mem_mapBundleStructure F ord fields _ (mem_of_mapGet _ _ _ h))
  refine ⟨h1, ?_⟩
  intro readFile parseJSON l locale path buf hcache hread hjson
  refine ⟨{ l with
      loadedBundles := mapSet l.loadedBundles path (mapBundleStructure F ord fields)
      translations := mapSet l.translations locale (mapBundleStructure F ord fields) },
    mapBundleStructure F ord fields, ?_, ?_, ?_, h1⟩
  · simp only [LoadBundle, hcache, hread, hjson]
  · exact mapGet_mapSet_self _ _ _
  · exact mapGet_mapSet_self _ _ _

theorem mapBundleStructure_variants_nonempty_witness :
    (∀ key vs, mapGet (mapBundleStructure sampleFmt List.reverse sampleObject) key = some vs →
      vs ≠ []) ∧
    (∀ (readFile : String → Option Bytes) (parseJSON : Bytes → Option JSONValue)
      (l : LanguageI18N) (locale path : String) (buf : Bytes),
      mapGet l.loadedBundles path = none → readFile path = some buf →
      jsonUnmarshal parseJSON buf = some sampleObject →
      ∃ l2 b, LoadBundle readFile parseJSON sampleFmt List.reverse l locale path = (l2, none) ∧
        mapGet l2.translations locale = some b ∧ mapGet l2.loadedBundles path = some b ∧
        ∀ key vs, mapGet b key = some vs → vs ≠ []) :=
  mapBundleStructure_variants_nonempty sampleFmt List.reverse (fun b => List.reverse_perm b)
    sampleObject
    (by
      have hl : leaves sampleObject
          = [(["hello", "world"], .str "Hello, {{.name}}!"),
             (["goodbye"], .arr [.str "See you!", .str "Goodbye!"]), (["count"], .num 3)] := by
        simp [sampleObject, leaves]
      rw [hl]
      intro pv hpv
      simp only [List.mem_cons, List.mem_singleton, List.not_mem_nil, or_false] at hpv
      rcases hpv with rfl | rfl | rfl <;> simp)

/-- C10, as stated, fails: the object with the literal key `a.b` and the
path `a`, `b` flattens to a bundle whose entry for `a.b` depends on the order
in which its two keys are visited. -/
theorem mapBundleStructure_order_counterexample :
    Reordered collidingObject collidingObjectSwapped ∧
    mapGet (mapBundleStructure sampleFmt id collidingObject) "a.b" = some ["y"] ∧
    mapGet (mapBundleStructure sampleFmt id collidingObjectSwapped) "a.b" = some ["x"] := by
  refine ⟨Reordered.swap _ _ _, ?_, ?_⟩
  · simp [collidingObject, mapBundleStructure, mapBundleLoop, mapSet, mapGet, keyDelim]
  · simp [collidingObjectSwapped, mapBundleStructure, mapBundleLoop, mapSet, mapGet, keyDelim]

/-- C10, amended: for an object in which no two distinct leaf paths give the
same dotted key, `mapBundleStructure` returns the same bundle whatever the
order in which the keys of the object, of the objects nested in it and of the
sub-bundles are visited. -/
theorem mapBundleStructure_order_independent (F : Nat → String) (ord1 ord2 : bundle → bundle)
    (hord1 : ∀ b, (ord1 b).Perm b) (hord2 : ∀ b, (ord2 b).Perm b)
    (fields1 fields2 : List (String × JSONValue)) (hwf : WellFormed fields1)
    (hinj : ∀ p ∈ leafPaths fields1, ∀ q ∈ leafPaths fields1, dotted p = dotted q → p = q)
    (hre : Reordered fields1 fields2) :
    ∀ key, mapGet (mapBundleStructure F ord1 fields1) key
      = mapGet (mapBundleStructure F ord2 fields2) key := by
  have hnd1 := flat_keys_nodup F fields1 hwf hinj
  have hperm : (flat F fields1).Perm (flat F fields2) :=
    (leaves_perm_of_reordered fields1 fields2 hre).map _
  have hnd2 : (mapKeys (flat F fields2)).Nodup := ((hperm.map Prod.fst).nodup_iff).mp hnd1
  intro key
  apply Option.ext
  intro vs
  rw [Option.mem_def, Option.mem_def, mapGet_mapBundleStructure_iff F ord1 hord1 fields1 hnd1,
    mapGet_mapBundleStructure_iff F ord2 hord2 fields2 hnd2]
  exact hperm.mem_iff

theorem mapBundleStructure_order_independent_witness :
    mapGet (mapBundleStructure sampleFmt id sampleObject) "hello.world"
      = mapGet (mapBundleStructure sampleFmt List.reverse
          (("goodbye", JSONValue.arr [.str "See you!", .str "Goodbye!"]) ::
            ("hello", JSONValue.obj [("world", .str "Hello, {{.name}}!")]) ::
            [("count", JSONValue.num 3)])) "hello.world" :=
  mapBundleStructure_order_independent sampleFmt id List.reverse (fun b => List.Perm.refl b)
    (fun b => List.reverse_perm b) sampleObject _ sampleObject_wellFormed
    sampleObject_paths_injective (Reordered.swap _ _ _) "hello.world"


/-! ## Lemmas on the fallback -/

theorem Get_unfold (E : TemplateEngine) (l : LanguageI18N) (r : Nat) (locale key : String)
    (vars : Vars) :
    Get E l r locale key vars =
      match mapGet l.translations locale with
      | none => if locale ≠ l.defaultLocale then Get E l r l.defaultLocale key vars else key
      | some bundles =>
        match mapGet bundles key with
        | none => if locale ≠ l.defaultLocale then Get E l r l.defaultLocale key vars else key
        | some raws =>
          if raws.length = 0 then
            if locale ≠ l.defaultLocale then Get E l r l.defaultLocale key vars else key
          else render E r raws vars := by
  conv_lhs => rw [Get]
  cases mapGet l.translations locale with
  | none => simp [GetDefault]
  | some b =>
    cases mapGet b key with
    | none => simp [GetDefault]
    | some raws => simp [GetDefault]

theorem Get_eq_of_agree (E : TemplateEngine) (l l2 : LanguageI18N) (r : Nat)
    (locale key : String) (vars : Vars) (hd : l2.defaultLocale = l.defaultLocale)
    (hloc : mapGet l2.translations locale = mapGet l.translations locale)
    (hdef : mapGet l2.translations l.defaultLocale = mapGet l.translations l.defaultLocale) :
    Get E l2 r locale key vars = Get E l r locale key vars := by
  have h0 : Get E l2 r l2.defaultLocale key vars = Get E l r l.defaultLocale key vars := by
    rw [Get_of_default, Get_of_default, hd, hdef]
  rw [Get_unfold E l2, Get_unfold E l, h0, hloc, hd]

theorem GetChecked_default (E : TemplateEngine) (l : LanguageI18N) (r : Nat) (fuel : Nat)
    (key : String) (vars : Vars) :
    GetChecked E l r (fuel + 1) l.defaultLocale key vars
      = some (Get E l r l.defaultLocale key vars) := by
  rw [Get_of_default, GetChecked]
  cases mapGet l.translations l.defaultLocale with
  | none => simp
  | some b =>
    cases hr : mapGet b key with
    | none => simp [hr]
    | some raws =>
      by_cases hlen : raws.length = 0
      · simp [hr, hlen]
      · have hi : randIntn r raws.length < raws.length :=
          Nat.mod_lt _ (Nat.pos_of_ne_zero hlen)
        simp [hr, hlen, render, List.getD_eq_getElem?_getD, List.getElem?_eq_getElem hi]

theorem GetChecked_two (E : TemplateEngine) (l : LanguageI18N) (r : Nat) (fuel : Nat)
    (locale key : String) (vars : Vars) :
    GetChecked E l r (fuel + 2) locale key vars = some (Get E l r locale key vars) := by
  rw [Get_unfold, GetChecked]
  cases mapGet l.translations locale with
  | none =>
    by_cases hd : locale = l.defaultLocale
    · simp [hd]
    · simp [hd, GetChecked_default]
  | some b =>
    cases hr : mapGet b key with
    | none =>
      by_cases hd : locale = l.defaultLocale
      · simp [hr, hd]
      · simp [hr, hd, GetChecked_default]
    | some raws =>
      by_cases hlen : raws.length = 0
      · by_cases hd : locale = l.defaultLocale
        · simp [hr, hlen, hd]
        · simp [hr, hlen, hd, GetChecked_default]
      · have hi : randIntn r raws.length < raws.length :=
          Nat.mod_lt _ (Nat.pos_of_ne_zero hlen)
        simp [hr, hlen, render, List.getD_eq_getElem?_getD, List.getElem?_eq_getElem hi]


/-! ## Theorems on the default locale and the fallback -/

/-- C15: after `SetDefault d` the default locale is `d`, `translations` and
`loadedBundles` are unchanged, and `GetDefault` is `Get` at `d`; in every
state `GetDefault` is `Get` at the default locale. -/
theorem SetDefault_changes_only_default (E : TemplateEngine) (l : LanguageI18N) (d : String)
    (r : Nat) (key : String) (vars : Vars) :
    (SetDefault l d).defaultLocale = d ∧
    (SetDefault l d).translations = l.translations ∧
    (SetDefault l d).loadedBundles = l.loadedBundles ∧
    GetDefault E (SetDefault l d) r key vars = Get E (SetDefault l d) r d key vars ∧
    GetDefault E l r key vars = Get E l r l.defaultLocale key vars := by
  refine ⟨rfl, rfl, rfl, ?_, ?_⟩
  · rw [GetDefault]
    rfl
  · rw [GetDefault]

/-- C16: when neither the requested locale nor the default locale has a
non-empty variant sequence for the key, `Get` returns the key; and `Get`
reads only the bundles of the requested locale and of the default locale: two
catalogs that agree on the default locale and on these two bundles give the
same result, whatever their other locales hold. -/
theorem Get_single_hop (E : TemplateEngine) (l : LanguageI18N) (r : Nat)
    (locale key : String) (vars : Vars)
    (hloc : mapGet l.translations locale = none ∨
      ∃ b, mapGet l.translations locale = some b ∧
        (mapGet b key = none ∨ mapGet b key = some []))
    (hdef : mapGet l.translations l.defaultLocale = none ∨
      ∃ b, mapGet l.translations l.defaultLocale = some b ∧
        (mapGet b key = none ∨ mapGet b key = some [])) :
    Get E l r locale key vars = key ∧
    ∀ (l2 : LanguageI18N) (r2 : Nat) (key2 : String) (vars2 : Vars),
      l2.defaultLocale = l.defaultLocale →
      mapGet l2.translations locale = mapGet l.translations locale →
      mapGet l2.translations l.defaultLocale = mapGet l.translations l.defaultLocale →
      Get E l2 r2 locale key2 vars2 = Get E l r2 locale key2 vars2 := by
  have hd : Get E l r l.defaultLocale key vars = key := by
    rw [Get_of_default]
    rcases hdef with h | ⟨b, hb, h | h⟩
    · simp [h]
    · simp [hb, h]
    · simp [hb, h]
  refine ⟨?_, ?_⟩
  · rw [Get_unfold, hd]
    rcases hloc with h | ⟨b, hb, h | h⟩
    · simp [h]
    · simp [hb, h]
    · simp [hb, h]
  · intro l2 r2 key2 vars2 h1 h2 h3
    exact Get_eq_of_agree E l l2 r2 locale key2 vars2 h1 h2 h3

theorem Get_single_hop_witness :
    Get (stdTemplate noForeign) sampleCatalog 0 "de" "new.key" none = "new.key" ∧
    ∀ (l2 : LanguageI18N) (r2 : Nat) (key2 : String) (vars2 : Vars),
      l2.defaultLocale = sampleCatalog.defaultLocale →
      mapGet l2.translations "de" = mapGet sampleCatalog.translations "de" →
      mapGet l2.translations sampleCatalog.defaultLocale
        = mapGet sampleCatalog.translations sampleCatalog.defaultLocale →
      Get (stdTemplate noForeign) l2 r2 "de" key2 vars2
        = Get (stdTemplate noForeign) sampleCatalog r2 "de" key2 vars2 :=
  Get_single_hop (stdTemplate noForeign) sampleCatalog 0 "de" "new.key" none
    (Or.inl rfl) (Or.inr ⟨enBundle, rfl, Or.inl rfl⟩)

/-- C17: `Get` never fails: run with its panics explicit, it returns a result
for every catalog, locale, key and variables with at most one delegation to
the default locale (call depth two), and with none when the locale is the
default one (call depth one); the result is that of `Get`, and the drawn
index is in bounds whenever the variant sequence is not empty. -/
theorem Get_never_fails (E : TemplateEngine) (l : LanguageI18N) (r : Nat)
    (locale key : String) (vars : Vars) :
    GetChecked E l r 2 locale key vars = some (Get E l r locale key vars) ∧
    GetChecked E l r 1 l.defaultLocale key vars = some (Get E l r l.defaultLocale key vars) ∧
    ∀ (x : String) (xs : List String), randIntn r (x :: xs).length < (x :: xs).length := by
  refine ⟨GetChecked_two E l r 0 locale key vars, GetChecked_default E l r 0 key vars, ?_⟩
  intro x xs
  exact randIntn_lt r (x :: xs) (List.cons_ne_nil _ _)


/-! ## Lemmas on loading -/

theorem mapGet_mapSet_ne {β : Type} (b : List (String × β)) (k k2 : String) (v : β)
    (h : k2 ≠ k) : mapGet (mapSet b k v) k2 = mapGet b k2 := by
  induction b with
  | nil => simp [mapSet, mapGet, Ne.symm h]
  | cons e rest ih =>
    obtain ⟨k3, v3⟩ := e
    by_cases hk : k3 = k
    · subst hk
      simp [mapSet, mapGet, Ne.symm h]
    · by_cases hk2 : k3 = k2
      · subst hk2
        simp [mapSet, mapGet, hk]
      · simp [mapSet, mapGet, hk, hk2, ih]

theorem LoadBundle_of_cached (readFile : String → Option Bytes)
    (parseJSON : Bytes → Option JSONValue) (F : Nat → String) (ord : bundle → bundle)
    (l : LanguageI18N) (locale path : String) (b : bundle)
    (hc : mapGet l.loadedBundles path = some b) :
    LoadBundle readFile parseJSON F ord l locale path
      = ({ l with translations := mapSet l.translations locale b }, none) := by
  simp only [LoadBundle, hc]

theorem LoadBundle_of_decoded (readFile : String → Option Bytes)
    (parseJSON : Bytes → Option JSONValue) (F : Nat → String) (ord : bundle → bundle)
    (l : LanguageI18N) (locale path : String) (buf : Bytes)
    (fields : List (String × JSONValue))
    (hc : mapGet l.loadedBundles path = none) (hread : readFile path = some buf)
    (hjson : jsonUnmarshal parseJSON buf = some fields) :
    LoadBundle readFile parseJSON F ord l locale path
      = ({ l with
            loadedBundles := mapSet l.loadedBundles path (mapBundleStructure F ord fields)
            translations := mapSet l.translations locale (mapBundleStructure F ord fields) },
          none) := by
  simp only [LoadBundle, hc, hread, hjson]

theorem LoadBundle_success_caches (readFile : String → Option Bytes)
    (parseJSON : Bytes → Option JSONValue) (F : Nat → String) (ord : bundle → bundle)
    (l : LanguageI18N) (locale path : String)
    (h : (LoadBundle readFile parseJSON F ord l locale path).2 = none) :
    ∃ b, mapGet (LoadBundle readFile parseJSON F ord l locale path).1.loadedBundles path = some b ∧
      mapGet (LoadBundle readFile parseJSON F ord l locale path).1.translations locale = some b := by
  cases hc : mapGet l.loadedBundles path with
  | some b =>
    rw [LoadBundle_of_cached readFile parseJSON F ord l locale path b hc]
    exact ⟨b, hc, mapGet_mapSet_self _ _ _⟩
  | none =>
    cases hread : readFile path with
    | none => simp [LoadBundle, hc, hread] at h
    | some buf =>
      cases hjson : jsonUnmarshal parseJSON buf with
      | none => simp [LoadBundle, hc, hread, hjson] at h
      | some fields =>
        rw [LoadBundle_of_decoded readFile parseJSON F ord l locale path buf fields hc hread hjson]
        exact ⟨_, mapGet_mapSet_self _ _ _, mapGet_mapSet_self _ _ _⟩

/-! ## Theorems on loading -/

/-- C11: when `loadedBundles` has an entry for the path, `LoadBundle`
succeeds for every locale whatever the file system and the decoder are, sets
`translations[locale]` to the cached bundle and leaves `loadedBundles`,
`defaultLocale` and the entries of the other locales unchanged; and loading
one path under two locales, the second load succeeds and the two entries of
`translations` hold the same bundle. -/
theorem LoadBundle_reuses_cached_path (readFile : String → Option Bytes)
    (parseJSON : Bytes → Option JSONValue) (F : Nat → String) (ord : bundle → bundle)
    (l : LanguageI18N) (locale path : String) (b : bundle)
    (hc : mapGet l.loadedBundles path = some b) :
    (∀ (readFile2 : String → Option Bytes) (parseJSON2 : Bytes → Option JSONValue)
        (F2 : Nat → String) (ord2 : bundle → bundle),
      LoadBundle readFile2 parseJSON2 F2 ord2 l locale path
        = LoadBundle readFile parseJSON F ord l locale path) ∧
    (LoadBundle readFile parseJSON F ord l locale path).2 = none ∧
    mapGet (LoadBundle readFile parseJSON F ord l locale path).1.translations locale = some b ∧
    (LoadBundle readFile parseJSON F ord l locale path).1.loadedBundles = l.loadedBundles ∧
    (LoadBundle readFile parseJSON F ord l locale path).1.defaultLocale = l.defaultLocale ∧
    (∀ locale2, locale2 ≠ locale →
      mapGet (LoadBundle readFile parseJSON F ord l locale path).1.translations locale2
        = mapGet l.translations locale2) ∧
    (∀ (l0 : LanguageI18N) (locale1 locale2 : String)
        (readFile1 readFile2 : String → Option Bytes)
        (parseJSON1 parseJSON2 : Bytes → Option JSONValue),
      (LoadBundle readFile1 parseJSON1 F ord l0 locale1 path).2 = none →
      (LoadBundle readFile2 parseJSON2 F ord
          (LoadBundle readFile1 parseJSON1 F ord l0 locale1 path).1 locale2 path).2 = none ∧
      ∃ b2,
        mapGet (LoadBundle readFile2 parseJSON2 F ord
          (LoadBundle readFile1 parseJSON1 F ord l0 locale1 path).1 locale2 path).1.translations
            locale1 = some b2 ∧
        mapGet (LoadBundle readFile2 parseJSON2 F ord
          (LoadBundle readFile1 parseJSON1 F ord l0 locale1 path).1 locale2 path).1.translations
            locale2 = some b2) := by
  have h := LoadBundle_of_cached readFile parseJSON F ord l locale path b hc
  refine ⟨?_, ?_, ?_, ?_, ?_, ?_, ?_⟩
  · intro readFile2 parseJSON2 F2 ord2
    rw [h, LoadBundle_of_cached readFile2 parseJSON2 F2 ord2 l locale path b hc]
  · rw [h]
  · rw [h]
    exact mapGet_mapSet_self _ _ _
  · rw [h]
  · rw [h]
  · intro locale2 hne
    rw [h]
    exact mapGet_mapSet_ne _ _ _ _ hne
  · intro l0 locale1 locale2 readFile1 readFile2 parseJSON1 parseJSON2 hok
    obtain ⟨b2, hb2, ht2⟩ := LoadBundle_success_caches readFile1 parseJSON1 F ord l0 locale1 path hok
    rw [LoadBundle_of_cached readFile2 parseJSON2 F ord _ locale2 path b2 hb2]
    refine ⟨rfl, b2, ?_, mapGet_mapSet_self _ _ _⟩
    by_cases hl : locale1 = locale2
    · subst hl
      exact mapGet_mapSet_self _ _ _
    · show mapGet (mapSet _ locale2 b2) locale1 = some b2
      rw [mapGet_mapSet_ne _ _ _ _ hl]
      exact ht2


theorem LoadBundle_reuses_cached_path_witness :
    mapGet cachedCatalog.loadedBundles "locales/en.json" = some enBundle ∧
    (LoadBundle (fun _ => none) (fun _ => none) sampleFmt id cachedCatalog "en-GB"
      "locales/en.json").2 = none ∧
    mapGet (LoadBundle (fun _ => none) (fun _ => none) sampleFmt id cachedCatalog "en-GB"
      "locales/en.json").1.translations "en-GB" = some enBundle :=
  ⟨rfl,
   (LoadBundle_reuses_cached_path (fun _ => none) (fun _ => none) sampleFmt id cachedCatalog
      "en-GB" "locales/en.json" enBundle rfl).2.1,
   (LoadBundle_reuses_cached_path (fun _ => none) (fun _ => none) sampleFmt id cachedCatalog
      "en-GB" "locales/en.json" enBundle rfl).2.2.1⟩

/-- C12: for a path that is not cached and whose content decodes to the JSON
object `obj`, `LoadBundle` succeeds; afterwards `translations[locale]` and
`loadedBundles[path]` are both `mapBundleStructure obj`, so every key of the
locale's bundle is a key of the new bundle, and `defaultLocale` and all other
entries of `translations` and `loadedBundles` are unchanged. -/
theorem LoadBundle_first_load (readFile : String → Option Bytes)
    (parseJSON : Bytes → Option JSONValue) (F : Nat → String) (ord : bundle → bundle)
    (l : LanguageI18N) (locale path : String) (buf : Bytes) (obj : List (String × JSONValue))
    (hc : mapGet l.loadedBundles path = none) (hread : readFile path = some buf)
    (hparse : parseJSON buf = some (.obj obj)) :
    (LoadBundle readFile parseJSON F ord l locale path).2 = none ∧
    mapGet (LoadBundle readFile parseJSON F ord l locale path).1.translations locale
      = some (mapBundleStructure F ord obj) ∧
    mapGet (LoadBundle readFile parseJSON F ord l locale path).1.loadedBundles path
      = some (mapBundleStructure F ord obj) ∧
    (∀ b2 key vs,
      mapGet (LoadBundle readFile parseJSON F ord l locale path).1.translations locale = some b2 →
      mapGet b2 key = some vs → mapGet (mapBundleStructure F ord obj) key = some vs) ∧
    (∀ locale2, locale2 ≠ locale →
      mapGet (LoadBundle readFile parseJSON F ord l locale path).1.translations locale2
        = mapGet l.translations locale2) ∧
    (∀ path2, path2 ≠ path →
      mapGet (LoadBundle readFile parseJSON F ord l locale path).1.loadedBundles path2
        = mapGet l.loadedBundles path2) ∧
    (LoadBundle readFile parseJSON F ord l locale path).1.defaultLocale = l.defaultLocale := by
  have hjson : jsonUnmarshal parseJSON buf = some obj := by
    simp only [jsonUnmarshal, hparse]
  have h := LoadBundle_of_decoded readFile parseJSON F ord l locale path buf obj hc hread hjson
  have ht : mapGet (LoadBundle readFile parseJSON F ord l locale path).1.translations locale
      = some (mapBundleStructure F ord obj) := by
    rw [h]
    exact mapGet_mapSet_self _ _ _
  refine ⟨?_, ht, ?_, ?_, ?_, ?_, ?_⟩
  · rw [h]
  · rw [h]
    exact mapGet_mapSet_self _ _ _
  · intro b2 key vs hb2 hk
    rw [ht] at hb2
    cases hb2
    exact hk
  · intro locale2 hne
    rw [h]
    exact mapGet_mapSet_ne _ _ _ _ hne
  · intro path2 hne
    rw [h]
    exact mapGet_mapSet_ne _ _ _ _ hne
  · rw [h]

theorem LoadBundle_first_load_witness :
    mapGet sampleCatalog.loadedBundles "locales/ru.json" = none ∧
    (LoadBundle (fun _ => some [1]) (fun _ => some (.obj sampleObject)) sampleFmt id
      sampleCatalog "ru" "locales/ru.json").2 = none ∧
    mapGet (LoadBundle (fun _ => some [1]) (fun _ => some (.obj sampleObject)) sampleFmt id
      sampleCatalog "ru" "locales/ru.json").1.translations "ru"
      = some (mapBundleStructure sampleFmt id sampleObject) :=
  ⟨rfl,
   (LoadBundle_first_load (fun _ => some [1]) (fun _ => some (.obj sampleObject)) sampleFmt id
      sampleCatalog "ru" "locales/ru.json" [1] sampleObject rfl rfl rfl).1,
   (LoadBundle_first_load (fun _ => some [1]) (fun _ => some (.obj sampleObject)) sampleFmt id
      sampleCatalog "ru" "locales/ru.json" [1] sampleObject rfl rfl rfl).2.1⟩

/-- C13, as stated, fails: a file whose content is the JSON value `null` is
loaded without an error, and an entry is added to `translations` and to
`loadedBundles`. -/
theorem LoadBundle_null_counterexample :
    mapGet NewLanguageI18N.loadedBundles "locales/null.json" = none ∧
    sampleReadFile "locales/null.json" = some [110, 117, 108, 108] ∧
    sampleParseJSON [110, 117, 108, 108] = some .null ∧
    LoadBundle sampleReadFile sampleParseJSON sampleFmt id NewLanguageI18N "en-US"
        "locales/null.json"
      = ({ defaultLocale := "en-US", translations := [("en-US", [])],
           loadedBundles := [("locales/null.json", [])] }, none) := by
  refine ⟨rfl, rfl, rfl, ?_⟩
  rw [LoadBundle_of_decoded sampleReadFile sampleParseJSON sampleFmt id NewLanguageI18N "en-US"
    "locales/null.json" [110, 117, 108, 108] [] rfl rfl rfl]
  rw [mapBundleStructure, mapBundleLoop]
  rfl

/-- C13, amended: for a path that is not cached and whose content is
well-formed JSON whose top-level value is an array, a string, a number or a
boolean, `LoadBundle` returns the error of the decoder and leaves the catalog
as it was; when the top-level value is `null`, it succeeds and stores the
empty bundle in `translations` and `loadedBundles`. -/
theorem LoadBundle_rejects_non_object (readFile : String → Option Bytes)
    (parseJSON : Bytes → Option JSONValue) (F : Nat → String) (ord : bundle → bundle)
    (l : LanguageI18N) (locale path : String) (buf : Bytes) (v : JSONValue)
    (hc : mapGet l.loadedBundles path = none) (hread : readFile path = some buf)
    (hparse : parseJSON buf = some v) (hv : ∀ obj, v ≠ .obj obj) :
    (v ≠ .null → LoadBundle readFile parseJSON F ord l locale path = (l, some .unmarshal)) ∧
    (v = .null → LoadBundle readFile parseJSON F ord l locale path
      = ({ l with
            loadedBundles := mapSet l.loadedBundles path []
            translations := mapSet l.translations locale [] }, none)) := by
  constructor
  · intro hnull
    have hjson : jsonUnmarshal parseJSON buf = none := by
      cases v with
      | null => exact absurd rfl hnull
      | obj o => exact absurd rfl (hv o)
      | bool b => simp only [jsonUnmarshal, hparse]
      | num b => simp only [jsonUnmarshal, hparse]
      | str b => simp only [jsonUnmarshal, hparse]
      | arr b => simp only [jsonUnmarshal, hparse]
    simp only [LoadBundle, hc, hread, hjson]
  · intro hnull
    subst hnull
    have hjson : jsonUnmarshal parseJSON buf = some [] := by
      simp only [jsonUnmarshal, hparse]
    rw [LoadBundle_of_decoded readFile parseJSON F ord l locale path buf [] hc hread hjson]
    rw [mapBundleStructure, mapBundleLoop]

theorem LoadBundle_rejects_non_object_witness :
    mapGet sampleCatalog.loadedBundles "locales/list.json" = none ∧
    LoadBundle (fun _ => some [91, 93]) (fun _ => some (.arr [])) sampleFmt id sampleCatalog
        "ru" "locales/list.json" = (sampleCatalog, some .unmarshal) :=
  ⟨rfl,
   (LoadBundle_rejects_non_object (fun _ => some [91, 93]) (fun _ => some (.arr [])) sampleFmt
      id sampleCatalog "ru" "locales/list.json" [91, 93] (.arr []) rfl rfl rfl
      (by intro obj h; cases h)).1 (by intro h; cases h)⟩

/-- C18: for a path that is not cached, when reading the file fails or
decoding its content fails, `LoadBundle` returns the error and the catalog is
what it was before the call, so `Get` gives afterwards what it gave before. -/
theorem LoadBundle_atomic_on_failure (readFile : String → Option Bytes)
    (parseJSON : Bytes → Option JSONValue) (F : Nat → String) (ord : bundle → bundle)
    (l : LanguageI18N) (locale path : String)
    (hc : mapGet l.loadedBundles path = none)
    (hfail : readFile path = none ∨
      ∃ buf, readFile path = some buf ∧ jsonUnmarshal parseJSON buf = none) :
    (∃ e, (LoadBundle readFile parseJSON F ord l locale path).2 = some e) ∧
    (readFile path = none →
      (LoadBundle readFile parseJSON F ord l locale path).2 = some .read) ∧
    (readFile path ≠ none →
      (LoadBundle readFile parseJSON F ord l locale path).2 = some .unmarshal) ∧
    (LoadBundle readFile parseJSON F ord l locale path).1 = l ∧
    ∀ (E : TemplateEngine) (r : Nat) (locale2 key : String) (vars : Vars),
      Get E (LoadBundle readFile parseJSON F ord l locale path).1 r locale2 key vars
        = Get E l r locale2 key vars := by
  have h : LoadBundle readFile parseJSON F ord l locale path = (l, some .read) ∧
        readFile path = none ∨
      LoadBundle readFile parseJSON F ord l locale path = (l, some .unmarshal) ∧
        readFile path ≠ none := by
    rcases hfail with h | ⟨buf, hread, hjson⟩
    · left
      exact ⟨by simp only [LoadBundle, hc, h], h⟩
    · right
      exact ⟨by simp only [LoadBundle, hc, hread, hjson], by simp [hread]⟩
  rcases h with ⟨h, hr⟩ | ⟨h, hr⟩
  · rw [h]
    exact ⟨⟨_, rfl⟩, fun _ => rfl, fun hne => absurd hr hne, rfl, fun _ _ _ _ _ => rfl⟩
  · rw [h]
    exact ⟨⟨_, rfl⟩, fun hn => absurd hn hr, fun _ => rfl, rfl, fun _ _ _ _ _ => rfl⟩

theorem LoadBundle_atomic_on_failure_witness :
    mapGet sampleCatalog.loadedBundles "locales/missing.json" = none ∧
    (LoadBundle sampleReadFile sampleParseJSON sampleFmt id sampleCatalog "ru"
      "locales/missing.json").2 = some .read ∧
    (LoadBundle sampleReadFile sampleParseJSON sampleFmt id sampleCatalog "ru"
      "locales/missing.json").1 = sampleCatalog :=
  ⟨rfl,
   (LoadBundle_atomic_on_failure sampleReadFile sampleParseJSON sampleFmt id sampleCatalog "ru"
      "locales/missing.json" rfl (Or.inl rfl)).2.1 rfl,
   (LoadBundle_atomic_on_failure sampleReadFile sampleParseJSON sampleFmt id sampleCatalog "ru"
      "locales/missing.json" rfl (Or.inl rfl)).2.2.2.1⟩


/-! ## Lemmas on `GetLocalizations` -/

theorem mem_mapKeys_iff {β : Type} (m : List (String × β)) (k : String) :
    k ∈ mapKeys m ↔ ∃ v, mapGet m k = some v := by
  induction m with
  | nil => simp [mapKeys, mapGet]
  | cons e rest ih =>
    obtain ⟨k2, v2⟩ := e
    by_cases hk : k2 = k
    · subst hk
      simp [mapKeys, mapGet]
    · have ih2 : k ∈ List.map Prod.fst rest ↔ ∃ v, mapGet rest k = some v := ih
      simp only [mapKeys, List.map_cons, List.mem_cons, mapGet, if_neg hk]
      rw [ih2]
      constructor
      · rintro (h | h)
        · exact absurd h.symm hk
        · exact h
      · intro h
        exact Or.inr h

theorem localizationsLoop_keys (E : TemplateEngine) (l : LanguageI18N) (rs : Nat → Nat)
    (key : String) (vars : Vars) (locale : String) :
    ∀ (todo : List (String × bundle)) (i : Nat) (acc : List (String × String)),
      (∃ s, mapGet (localizationsLoop E l rs key vars i acc todo) locale = some s)
        ↔ (∃ s, mapGet acc locale = some s) ∨ locale ∈ mapKeys todo := by
  intro todo
  induction todo with
  | nil =>
    intro i acc
    simp [localizationsLoop, mapKeys]
  | cons e rest ih =>
    intro i acc
    obtain ⟨loc, b⟩ := e
    rw [localizationsLoop, ih]
    by_cases hk : locale = loc
    · subst hk
      simp [mapKeys, mapGet_mapSet_self]
    · rw [mapGet_mapSet_ne _ _ _ _ hk]
      simp [mapKeys, hk]

theorem localizationsLoop_values (E : TemplateEngine) (l : LanguageI18N) (rs : Nat → Nat)
    (key : String) (vars : Vars) (locale s : String) :
    ∀ (todo : List (String × bundle)) (i : Nat) (acc : List (String × String)),
      mapGet (localizationsLoop E l rs key vars i acc todo) locale = some s →
      mapGet acc locale = some s ∨ ∃ r, s = Get E l r locale key vars := by
  intro todo
  induction todo with
  | nil =>
    intro i acc h
    rw [localizationsLoop] at h
    exact Or.inl h
  | cons e rest ih =>
    intro i acc h
    obtain ⟨loc, b⟩ := e
    rw [localizationsLoop] at h
    rcases ih _ _ h with h2 | h2
    · by_cases hk : locale = loc
      · subst hk
        rw [mapGet_mapSet_self] at h2
        exact Or.inr ⟨rs i, (Option.some.inj h2).symm⟩
      · rw [mapGet_mapSet_ne _ _ _ _ hk] at h2
        exact Or.inl h2
    · exact Or.inr h2

/-! ## Theorems on `GetLocalizations` -/

/-- C14: the keys of the map returned by `GetLocalizations` are exactly the
locales present in `translations`, so the map is empty when none is loaded,
and the value of each locale is a result of `Get` for that locale, the key
and the variables. -/
theorem GetLocalizations_covers_loaded_locales (E : TemplateEngine)
    (ordT : List (String × bundle) → List (String × bundle))
    (hordT : ∀ m, (ordT m).Perm m) (l : LanguageI18N) (rs : Nat → Nat) (key : String)
    (vars : Vars) :
    (∀ locale, (∃ s, mapGet (GetLocalizations E ordT l rs key vars) locale = some s)
      ↔ ∃ b, mapGet l.translations locale = some b) ∧
    (l.translations = [] → GetLocalizations E ordT l rs key vars = []) ∧
    (∀ locale s, mapGet (GetLocalizations E ordT l rs key vars) locale = some s →
      ∃ r, s = Get E l r locale key vars) := by
  refine ⟨?_, ?_, ?_⟩
  · intro locale
    rw [GetLocalizations, localizationsLoop_keys]
    have hp : (mapKeys (ordT l.translations)).Perm (mapKeys l.translations) :=
      (hordT l.translations).map Prod.fst
    constructor
    · rintro (⟨s, h⟩ | h)
      · simp [mapGet] at h
      · exact (mem_mapKeys_iff _ _).mp (hp.mem_iff.mp h)
    · intro h
      exact Or.inr (hp.mem_iff.mpr ((mem_mapKeys_iff _ _).mpr h))
  · intro h
    have h2 : ordT l.translations = [] := by
      have := hordT l.translations
      rw [h] at this
      rw [h]
      exact List.perm_nil.mp this
    rw [GetLocalizations, h2, localizationsLoop]
  · intro locale s h
    rw [GetLocalizations] at h
    rcases localizationsLoop_values E l rs key vars locale s _ _ _ h with h2 | h2
    · simp [mapGet] at h2
    · exact h2

theorem GetLocalizations_covers_loaded_locales_witness :
    (∀ locale, (∃ s, mapGet (GetLocalizations (stdTemplate noForeign) List.reverse sampleCatalog
        (fun i => i) "goodbye" none) locale = some s)
      ↔ ∃ b, mapGet sampleCatalog.translations locale = some b) ∧
    (sampleCatalog.translations = [] →
      GetLocalizations (stdTemplate noForeign) List.reverse sampleCatalog (fun i => i)
        "goodbye" none = []) ∧
    (∀ locale s, mapGet (GetLocalizations (stdTemplate noForeign) List.reverse sampleCatalog
        (fun i => i) "goodbye" none) locale = some s →
      ∃ r, s = Get (stdTemplate noForeign) sampleCatalog r locale "goodbye" none) :=
  GetLocalizations_covers_loaded_locales (stdTemplate noForeign) List.reverse
    (fun m => List.reverse_perm m) sampleCatalog (fun i => i) "goodbye" none

end Goi18n
